import Mathlib

/-!
# ReefOCR: extraction-reconciliation core (`ReefOCR/utils/dataUtils.js`)

Shallow embedding of `removeSelected`, `extractFields`, `isOldVersion`,
`processSegmentData`, `calculateStats` and `generateDetailedReport`, with the vocabulary
of `ReefOCR/config/index.js`, and of the lineage variants `calculateStats` of
`processing.js` and `extractFields` of `refined.js`.

Modelling conventions.
* A JavaScript string is a Lean `String`; the string primitives are defined on
  its list of characters.
* A text-valued property that may be `undefined`, `null` or a string is a `JsText`.
* An element of `table.cells` is a `CellElem`: `none` is a `null`/`undefined`
  element, `some c` an object whose `rowIndex`/`columnIndex` may be absent.
* A thrown `TypeError` is the `error` case of `Except JsError`.
* Objects with ordered keys (`segmentData`, `fields`) are association lists in
  enumeration order; segment keys are written as integers.
* `rowIndex` and `columnIndex` are integers (`Int`); `Math.floor(x / 2)` is `Int.fdiv x 2`
  and the remainder `x % 2` is `Int.tmod x 2`.
-/

namespace ReefOCR

/-! ## JavaScript string primitives -/

/-- A property holding `undefined`, `null` or a string. -/
inductive JsText where
  | undefined
  | null
  | str (s : String)
deriving DecidableEq, Repr

/-- Truthiness of a `JsText`: only a non-empty string is truthy. -/
def JsText.truthy : JsText → Bool
  | .str s => s != ""
  | _ => false

/-- The expression `value || ''` on a `JsText`. -/
def JsText.orEmpty : JsText → String
  | .str s => s
  | _ => ""

/-- The truthy string held by a `JsText`, if any. -/
def JsText.truthyVal : JsText → Option String
  | .str s => if s != "" then some s else none
  | _ => none

/-- Code points removed by `String.prototype.trim`: ECMAScript WhiteSpace and
LineTerminator. -/
def jsWhitespaceCodes : List Nat :=
  [0x09, 0x0A, 0x0B, 0x0C, 0x0D, 0x20, 0xA0, 0x1680,
   0x2000, 0x2001, 0x2002, 0x2003, 0x2004, 0x2005, 0x2006, 0x2007, 0x2008, 0x2009, 0x200A,
   0x2028, 0x2029, 0x202F, 0x205F, 0x3000, 0xFEFF]

/-- Whether `String.prototype.trim` strips this character. -/
def isJsWhitespace (c : Char) : Bool := jsWhitespaceCodes.contains c.toNat

/-- Characters of `s.trim()`. -/
def trimChars (l : List Char) : List Char :=
  ((l.dropWhile isJsWhitespace).reverse.dropWhile isJsWhitespace).reverse

/-- The method `String.prototype.trim`. -/
def jsTrim (s : String) : String := ⟨trimChars s.data⟩

/-- The token matched by the regular expression `/:selected:/g`. -/
def selectedMarker : List Char := [':', 's', 'e', 'l', 'e', 'c', 't', 'e', 'd', ':']

/-- Characters of `s.replace(/:selected:/g, '')`: a left-to-right scan deleting each
non-overlapping match; the first argument counts the characters of the current match
still to be dropped. -/
def stripMarker : Nat → List Char → List Char
  | _, [] => []
  | k + 1, _ :: cs => stripMarker k cs
  | 0, c :: cs =>
    if selectedMarker.isPrefixOf (c :: cs) then stripMarker 9 cs else c :: stripMarker 0 cs

/-- Upper-casing of one character as `String.prototype.toUpperCase` does it, exact on
ASCII and on every non-ASCII character whose upper-case form consists of ASCII letters
(dotless i, long s, sharp s and the Latin ligatures U+FB00..U+FB06). Any other non-ASCII
character is kept as it is; its upper-case form contains a non-ASCII character as well,
so membership in the ASCII vocabulary is the same. -/
def upperChar (c : Char) : List Char :=
  if c.toNat = 0x131 then ['I']
  else if c.toNat = 0x17F then ['S']
  else if c.toNat = 0xDF then ['S', 'S']
  else if c.toNat = 0xFB00 then ['F', 'F']
  else if c.toNat = 0xFB01 then ['F', 'I']
  else if c.toNat = 0xFB02 then ['F', 'L']
  else if c.toNat = 0xFB03 then ['F', 'F', 'I']
  else if c.toNat = 0xFB04 then ['F', 'F', 'L']
  else if c.toNat = 0xFB05 then ['S', 'T']
  else if c.toNat = 0xFB06 then ['S', 'T']
  else [c.toUpper]

/-- Characters of `s.toUpperCase()`. -/
def upperChars : List Char → List Char
  | [] => []
  | c :: cs => upperChar c ++ upperChars cs

/-- The method `String.prototype.toUpperCase`. -/
def toUpperCase (s : String) : String := ⟨upperChars s.data⟩

/-! ## `config.validSubstrateCodes` -/

/-- The object `validSubstrateCodes` of `config/index.js`. -/
def validSubstrateCodes : List (String × String) :=
  [("HC", "hard coral"), ("NIA", "nutrient indicator algae"), ("RB", "rubble"),
   ("OT", "other"), ("SC", "soft coral"), ("SP", "sponge"), ("SD", "sand"),
   ("RKC", "recently killed coral"), ("RC", "rock"), ("SI", "silt/clay")]

/-- The call `obj.hasOwnProperty(key)` on an object given by its own entries. -/
def hasOwnProperty (obj : List (String × String)) (key : String) : Bool :=
  obj.any fun p => p.1 == key

/-! ## `removeSelected` -/

/-- The function `removeSelected` of `dataUtils.js`. -/
def removeSelected : JsText → String
  | .str s => jsTrim ⟨stripMarker 0 s.data⟩
  | v => v.orEmpty

/-! ## Data model of `processSegmentData` -/

/-- An object of `table.cells`; an absent `rowIndex`/`columnIndex` is `none`. -/
structure CellObj where
  rowIndex : Option Int
  columnIndex : Option Int
  content : JsText
deriving DecidableEq, Repr

/-- An element of `table.cells`: `none` is a `null` or `undefined` element. -/
abbrev CellElem := Option CellObj

/-- A well-formed cell `{ rowIndex: int, columnIndex: int, content: string|null }`. -/
structure RawCell where
  rowIndex : Int
  columnIndex : Int
  content : JsText
deriving DecidableEq, Repr

/-- A well-formed cell as an object of `table.cells`. -/
def RawCell.toObj (c : RawCell) : CellObj :=
  { rowIndex := some c.rowIndex, columnIndex := some c.columnIndex, content := c.content }

/-- A table object; `cells = none` is a missing (or `null`) `cells` field. -/
structure Table where
  cells : Option (List CellElem)
deriving DecidableEq, Repr

/-- The table `{ cells }` built from well-formed cells. -/
def Table.ofRaw (cells : List RawCell) : Table :=
  { cells := some (cells.map fun c => some c.toObj) }

/-- An entry pushed onto a segment's `data`. -/
structure SegmentEntry where
  depth : String
  content : String
  isValid : Bool
  isBlank : Bool
  filledFromAbove : Bool
deriving DecidableEq, Repr

/-- One segment bucket `{ range, data }`. -/
structure Segment where
  range : String
  data : List SegmentEntry
deriving DecidableEq, Repr

/-- The object `segmentData`: segment key to bucket, in key order. -/
abbrev SegmentData := List (Int × Segment)

/-- A thrown JavaScript exception. -/
inductive JsError where
  | typeError
deriving DecidableEq, Repr

/-- The four-bucket object with the fixed range labels and given data sequences. -/
def mkSegmentData (d1 d2 d3 d4 : List SegmentEntry) : SegmentData :=
  [(1, ⟨"0 - 19.5 m", d1⟩), (2, ⟨"25 - 44.5 m", d2⟩),
   (3, ⟨"50 - 69.5 m", d3⟩), (4, ⟨"75 - 94.5 m", d4⟩)]

/-- The initial `segmentData` of `processSegmentData`. -/
def initialSegmentData : SegmentData := mkSegmentData [] [] [] []

/-- The statement `segmentData[segment].data.push(entry)`. -/
def pushEntry (sd : SegmentData) (segment : Int) (entry : SegmentEntry) : SegmentData :=
  sd.map fun p => if p.1 = segment then (p.1, { p.2 with data := p.2.data ++ [entry] }) else p

/-- The data sequence `segmentData[segment].data` (empty when the key is absent). -/
def dataOf (sd : SegmentData) (segment : Int) : List SegmentEntry :=
  match sd.lookup segment with
  | some seg => seg.data
  | none => []

/-- The mutable state of the `forEach` loop of `processSegmentData`. -/
structure LoopState where
  segmentData : SegmentData
  lastValidContent : Int → JsText

/-- The call `table.cells.find(c => c.rowIndex === rowIndex && c.columnIndex === col)`;
reading `c.rowIndex` of a `null` element throws. -/
def findCell (rowIndex col : Int) : List CellElem → Except JsError (Option CellObj)
  | [] => .ok none
  | none :: _ => .error .typeError
  | some c :: rest =>
    if c.rowIndex = some rowIndex ∧ c.columnIndex = some col then .ok (some c)
    else findCell rowIndex col rest

/-- The expression `found?.content || ''`. -/
def contentOrEmpty : Option CellObj → String
  | some c => c.content.orEmpty
  | none => ""

/-- The statement `if (!lastValidContent[segment]) lastValidContent[segment] = null`. -/
def initLast (last : Int → JsText) (segment : Int) : Int → JsText :=
  if (last segment).truthy then last else Function.update last segment .null

/-- The substrate-code branch `if (!isDepth) { ... }` of the callback: forward fill,
validity, update of `lastValidContent`, depth lookup and push. -/
def processCode (cells : List CellElem) (sd : SegmentData) (last : Int → JsText)
    (rowIndex columnIndex segment : Int) (trimmed : String) : Except JsError LoopState :=
  let isBlank := trimmed == ""
  let fill := isBlank && (last segment).truthy
  let processedContent := if fill then (last segment).orEmpty else trimmed
  let isValid := hasOwnProperty validSubstrateCodes (toUpperCase processedContent)
  let last2 : Int → JsText :=
    if isValid && !isBlank then Function.update last segment (.str processedContent) else last
  match findCell rowIndex (columnIndex - 1) cells with
  | .error e => .error e
  | .ok found =>
    .ok { segmentData := pushEntry sd segment
            { depth := removeSelected (.str (contentOrEmpty found)),
              content := processedContent, isValid := isValid,
              isBlank := isBlank, filledFromAbove := fill },
          lastValidContent := last2 }

/-- The callback body after the structure check, on the destructured
`{ rowIndex, columnIndex, content }`. -/
def processBody (cells : List CellElem) (st : LoopState) (rowIndex columnIndex : Int)
    (content : JsText) : Except JsError LoopState :=
  if rowIndex = 0 then .ok st
  else
    let segment := Int.fdiv columnIndex 2 + 1
    if segment < 1 ∨ segment > 4 then .ok st
    else
      let isDepth := decide (Int.tmod columnIndex 2 = 0)
      let last := initLast st.lastValidContent segment
      let trimmed := removeSelected (.str (jsTrim content.orEmpty))
      if isDepth then .ok { st with lastValidContent := last }
      else processCode cells st.segmentData last rowIndex columnIndex segment trimmed

/-- The `forEach` callback of `processSegmentData`, run on one element: a `null`
element or an object without `rowIndex` or `columnIndex` is skipped. -/
def processCell (cells : List CellElem) (st : LoopState) : CellElem → Except JsError LoopState
  | none => .ok st
  | some cell =>
    match cell.rowIndex, cell.columnIndex with
    | some rowIndex, some columnIndex => processBody cells st rowIndex columnIndex cell.content
    | _, _ => .ok st

/-- The loop `table.cells.forEach(...)`, stopping at the first exception. -/
def forEachCell (cells : List CellElem) : List CellElem → LoopState → Except JsError LoopState
  | [], st => .ok st
  | cell :: rest, st =>
    match processCell cells st cell with
    | .error e => .error e
    | .ok st2 => forEachCell cells rest st2

/-- The function `processSegmentData` of `dataUtils.js`; the argument `none` is a
`null`/`undefined` table. -/
def processSegmentData : Option Table → Except JsError SegmentData
  | none => .ok initialSegmentData
  | some table =>
    match table.cells with
    | none => .ok initialSegmentData
    | some cells =>
      match forEachCell cells cells ⟨initialSegmentData, fun _ => .undefined⟩ with
      | .error e => .error e
      | .ok st => .ok st.segmentData

/-! ## `calculateStats` -/

/-- The object returned by `calculateStats`. -/
structure Stats where
  totalCells : Nat
  validCells : Nat
  invalidCells : Nat
  filledCells : Nat
deriving DecidableEq, Repr

/-- The body of the inner `forEach` of `calculateStats`. -/
def countCell (acc : Stats) (cell : SegmentEntry) : Stats :=
  { totalCells := acc.totalCells + 1,
    validCells := if cell.isValid then acc.validCells + 1 else acc.validCells,
    invalidCells :=
      if !cell.isValid && !cell.filledFromAbove then acc.invalidCells + 1 else acc.invalidCells,
    filledCells := if cell.filledFromAbove then acc.filledCells + 1 else acc.filledCells }

/-- The function `calculateStats` of `dataUtils.js`. -/
def calculateStats (segmentData : SegmentData) : Stats :=
  segmentData.foldl (fun acc p => p.2.data.foldl countCell acc) ⟨0, 0, 0, 0⟩

/-! ## `generateDetailedReport` -/

/-- A row of `reportData`; `segment` is the key of the segment the entry belongs to. -/
structure ReportRow where
  segment : Int
  depth : String
  originalContent : String
  processedContent : String
  isValid : String
  filledFromAbove : String
  issue : String
deriving DecidableEq, Repr

/-- A row of `fieldReport`. -/
structure FieldRow where
  field : String
  value : String
  issue : String
deriving DecidableEq, Repr

/-- The object returned by `generateDetailedReport`. -/
structure Report where
  reportData : List ReportRow
  fieldReport : List FieldRow
deriving DecidableEq, Repr

/-- The object literal pushed onto `reportData` for one entry. -/
def reportRow (segment : Int) (cell : SegmentEntry) : ReportRow :=
  { segment := segment,
    depth := removeSelected (.str cell.depth),
    originalContent := if cell.isBlank then "" else removeSelected (.str cell.content),
    processedContent := removeSelected (.str cell.content),
    isValid := if cell.isValid then "Yes" else "No",
    filledFromAbove := if cell.filledFromAbove then "Yes" else "No",
    issue :=
      if cell.isValid then (if cell.filledFromAbove then "Filled from above" else "")
      else "Invalid substrate code" }

/-- The body of the inner `forEach` of `generateDetailedReport`. -/
def reportCell (segment : Int) (acc : List ReportRow) (cell : SegmentEntry) : List ReportRow :=
  if !cell.isValid || cell.filledFromAbove then acc ++ [reportRow segment cell] else acc

/-- The function `generateDetailedReport` of `dataUtils.js`; `fields` is the extracted
record as its ordered key/value entries. -/
def generateDetailedReport (segmentData : SegmentData) (fields : List (String × String)) :
    Report :=
  { reportData := segmentData.foldl (fun acc p => p.2.data.foldl (reportCell p.1) acc) [],
    fieldReport := fields.map fun p =>
      { field := p.1, value := removeSelected (.str p.2),
        issue := if p.2 = "N/A" then "Missing or unrecognized" else "" } }


/-! ## Specification-level description of the reconciliation pass -/

/-- The normalized text of a cell's content: `removeSelected((content || '').trim())`. -/
def normContent (content : JsText) : String :=
  removeSelected (.str (jsTrim content.orEmpty))

/-- Case-insensitive membership in the vocabulary, as tested on line 90:
`validSubstrateCodes.hasOwnProperty(s.toUpperCase())`. -/
def isValidCode (s : String) : Bool :=
  hasOwnProperty validSubstrateCodes (toUpperCase s)

/-- Whether a well-formed cell is a non-header cell of the code column of segment `s`. -/
def isCodeCellOf (s : Int) (c : RawCell) : Bool :=
  decide (c.rowIndex ≠ 0 ∧ c.columnIndex = 2 * s - 1)

/-- The non-header code-column cells of segment `s`, in source order. -/
def codeCells (s : Int) (cells : List RawCell) : List RawCell :=
  cells.filter (isCodeCellOf s)

/-- The first cell of the sequence at row `r` and column `k`. -/
def cellAt (cells : List RawCell) (r k : Int) : Option RawCell :=
  cells.find? fun d => decide (d.rowIndex = r ∧ d.columnIndex = k)

/-- The depth paired with a code cell: the normalized content of the first cell at the
same row and the column to the left, the empty string when there is none. -/
def pairedDepth (cells : List RawCell) (c : RawCell) : String :=
  match cellAt cells c.rowIndex (c.columnIndex - 1) with
  | some d => removeSelected d.content
  | none => ""

/-- The entry built for a code cell from its paired depth, the segment's last valid
content `last` and its own normalized text `t`: a blank cell takes over `last`. -/
def fillEntry (depth : String) (last : Option String) (t : String) : SegmentEntry :=
  match last with
  | some v =>
    if t = "" then
      { depth := depth, content := v, isValid := isValidCode v,
        isBlank := true, filledFromAbove := true }
    else
      { depth := depth, content := t, isValid := isValidCode t,
        isBlank := false, filledFromAbove := false }
  | none =>
    { depth := depth, content := t, isValid := isValidCode t,
      isBlank := decide (t = ""), filledFromAbove := false }

/-- The segment's last valid content after a code cell with normalized text `t`:
refreshed only by a non-blank valid code. -/
def nextValid (last : Option String) (t : String) : Option String :=
  if t ≠ "" ∧ isValidCode t = true then some t else last

/-- The entry described by the specification for a code cell `c`, given the segment's
last valid content `last`. -/
def specEntry (cells : List RawCell) (last : Option String) (c : RawCell) : SegmentEntry :=
  fillEntry (pairedDepth cells c) last (normContent c.content)

/-- The segment's last valid content after a code cell `c`. -/
def specNextLast (last : Option String) (c : RawCell) : Option String :=
  nextValid last (normContent c.content)

/-- The segment's last valid content after a run of code cells. -/
def specLastAfter (last : Option String) (cs : List RawCell) : Option String :=
  cs.foldl specNextLast last

/-- The entries described by the specification for the code cells of one segment. -/
def specFill (cells : List RawCell) : Option String → List RawCell → List SegmentEntry
  | _, [] => []
  | last, c :: cs => specEntry cells last c :: specFill cells (specNextLast last c) cs

/-- All entries of a `segmentData`, in enumeration order. -/
def allEntries (sd : SegmentData) : List SegmentEntry :=
  sd.flatMap fun p => p.2.data

/-- Whether an element of `table.cells` is a header cell (`rowIndex === 0`). -/
def isHeaderCell : CellElem → Bool
  | some c => decide (c.rowIndex = some 0)
  | none => false

/-- Flag consistency of one entry: validity is vocabulary membership of the content, a
filled entry is blank and valid, and a blank entry that was not filled is empty and
invalid. -/
def EntryInv (e : SegmentEntry) : Prop :=
  e.isValid = isValidCode e.content ∧
  (e.filledFromAbove = true → e.isBlank = true ∧ e.isValid = true) ∧
  (e.isBlank = true → e.filledFromAbove = false → e.content = "" ∧ e.isValid = false)

/-- Every truthy `lastValidContent` is a valid code. -/
def LastInv (last : Int → JsText) : Prop :=
  ∀ s v, (last s).truthyVal = some v → isValidCode v = true

/-- The keys of a `segmentData` with their range labels. -/
def rangesOf (sd : SegmentData) : List (Int × String) :=
  sd.map fun p => (p.1, p.2.range)

/-- Whether an entry is reported by `generateDetailedReport`:
`!cell.isValid || cell.filledFromAbove`. -/
def hasIssue (e : SegmentEntry) : Bool := !e.isValid || e.filledFromAbove

/-- Whether an entry is counted in `invalidCells`:
`!cell.isValid && !cell.filledFromAbove`. -/
def countsInvalid (e : SegmentEntry) : Bool := !e.isValid && !e.filledFromAbove

/-! ## `extractFields` and `isOldVersion` -/

/-- An argument expected to hold an object: `undefined` (or omitted), `null`, or the
object itself. -/
inductive JsArg (α : Type) where
  | undefined
  | null
  | obj (a : α)
deriving Repr

/-- A field object `{ value }` of the OCR result. -/
structure FieldObj where
  value : JsText
deriving DecidableEq, Repr

/-- The field bag: its own properties by key, each holding a field object, or
`undefined`/`null` (`none`). -/
abbrev FieldBag := List (String × Option FieldObj)

/-- The extracted record: its seven properties as ordered key/value entries. -/
abbrev ExtractedFields := List (String × String)

/-- The expression `fields[key]?.value`. -/
def fieldValue (fields : FieldBag) (key : String) : JsText :=
  match fields.lookup key with
  | some (some f) => f.value
  | _ => .undefined

/-- The expression `s || 'N/A'` on a string. -/
def orNA (s : String) : String := if s = "" then "N/A" else s

/-- One property of the object literal of `extractFields`:
`removeSelected(fields[key]?.value) || 'N/A'`. -/
def extractField (fields : FieldBag) (key : String) : String :=
  orNA (removeSelected (fieldValue fields key))

/-- The object literal returned by `extractFields`, on the bag bound to `fields`. -/
def extractFieldsObj (fields : FieldBag) : ExtractedFields :=
  [("location", extractField fields "Location"),
   ("islandCountry", extractField fields "Island/Country"),
   ("date", extractField fields "Date"),
   ("teamLeader", extractField fields "Team Leader"),
   ("timeOfDive", extractField fields "Time of Dive"),
   ("divedDepth", extractField fields "Dived Depth"),
   ("nameOfDiver", extractField fields "Name Of Diver")]

/-- The function `extractFields` of `dataUtils.js`: the default parameter `fields = {}`
replaces an `undefined` argument only; reading `fields.Location` of `null` throws. -/
def extractFields : JsArg FieldBag → Except JsError ExtractedFields
  | .undefined => .ok (extractFieldsObj [])
  | .null => .error .typeError
  | .obj fields => .ok (extractFieldsObj fields)

/-- The function `isOldVersion` of `dataUtils.js`:
`Object.values(fields).some(value => value !== 'N/A')`. -/
def isOldVersion (fields : ExtractedFields) : Bool :=
  fields.any fun p => p.2 != "N/A"

/-! ## Reference definitions, from the specification -/

/-- Reference definition, from the specification: the characters of a string with every
left-to-right non-overlapping occurrence of the marker deleted. -/
def deleteMarkerRef : List Char → List Char
  | [] => []
  | c :: cs =>
    if selectedMarker.isPrefixOf (c :: cs) then deleteMarkerRef (cs.drop 9)
    else c :: deleteMarkerRef cs
termination_by l => l.length
decreasing_by
  all_goals simp_wf
  · have := List.length_drop 9 cs
    omega

/-- Reference definition, from the specification, of the value normalizer: the empty
string for `null`/`undefined`, else the trimmed string without its markers. -/
def removeSelectedRef : JsText → String
  | .str s => jsTrim ⟨deleteMarkerRef s.data⟩
  | _ => ""

/-- Reference definition, from the specification, of one extracted value: the normalized
value when the source key is present with a string value whose normalization is
non-empty, the sentinel `"N/A"` otherwise. -/
def extractFieldRef (fields : FieldBag) (key : String) : String :=
  match fields.lookup key with
  | some (some ⟨.str v⟩) =>
    if removeSelected (.str v) ≠ "" then removeSelected (.str v) else "N/A"
  | _ => "N/A"

/-- Reference definition, from the specification, of the statistics: counts over the
entries of all segments. -/
def calculateStatsRef (sd : SegmentData) : Stats :=
  { totalCells := (sd.map fun p => p.2.data.length).sum,
    validCells := (sd.map fun p => p.2.data.countP fun e => e.isValid).sum,
    invalidCells :=
      (sd.map fun p => p.2.data.countP fun e => !e.isValid && !e.filledFromAbove).sum,
    filledCells := (sd.map fun p => p.2.data.countP fun e => e.filledFromAbove).sum }

/-! ## The lineage variants in `processing.js` and `refined.js` -/

/-- The property `cell.isDepth` read on an entry: a `SegmentEntry` has no such property,
so the read gives `undefined`, which is falsy. -/
def isDepthOf (_cell : SegmentEntry) : Bool := false

/-- The object returned by `calculateStats` of `processing.js`, with its keys
`'Total Substrate Cells'`, `'Valid Cells'`, `'Invalid Cells'`, `'Blank Cells Filled'`. -/
structure ProcessingStats where
  totalSubstrateCells : Nat
  validCells : Nat
  invalidCells : Nat
  blankCellsFilled : Nat
deriving DecidableEq, Repr

/-- The body of the inner `forEach` of `calculateStats` in `processing.js`. -/
def countCellProcessing (acc : ProcessingStats) (cell : SegmentEntry) : ProcessingStats :=
  if !isDepthOf cell then
    { totalSubstrateCells := acc.totalSubstrateCells + 1,
      validCells := if cell.isValid then acc.validCells + 1 else acc.validCells,
      invalidCells :=
        if !cell.isValid && !cell.isBlank && !cell.filledFromAbove then acc.invalidCells + 1
        else acc.invalidCells,
      blankCellsFilled :=
        if cell.filledFromAbove then acc.blankCellsFilled + 1 else acc.blankCellsFilled }
  else acc

/-- The function `calculateStats` of `processing.js`. -/
def calculateStatsProcessing (segmentData : SegmentData) : ProcessingStats :=
  segmentData.foldl (fun acc p => p.2.data.foldl countCellProcessing acc) ⟨0, 0, 0, 0⟩

/-- An extracted record passed where a field bag is expected: each property holds a
string, and reading `.value` of a string gives `undefined`. -/
def recordAsBag (record : ExtractedFields) : FieldBag :=
  record.map fun p => (p.1, some ⟨.undefined⟩)

/-- One property of the object literal of `extractFields` in `refined.js`:
`fields[key]?.value || 'N/A'`. -/
def extractFieldRefined (fields : FieldBag) (key : String) : String :=
  orNA (fieldValue fields key).orEmpty

/-- The function `extractFields` of `refined.js`, on an object. -/
def extractFieldsRefined (fields : FieldBag) : ExtractedFields :=
  [("location", extractFieldRefined fields "Location"),
   ("islandCountry", extractFieldRefined fields "Island/Country"),
   ("date", extractFieldRefined fields "Date"),
   ("teamLeader", extractFieldRefined fields "Team Leader"),
   ("timeOfDive", extractFieldRefined fields "Time of Dive"),
   ("divedDepth", extractFieldRefined fields "Dived Depth"),
   ("nameOfDiver", extractFieldRefined fields "Name Of Diver")]

/-- The legacy-variant flag of `processImage` in `refined.js`: with
`fields = extractFields(result.documents[0]?.fields || {})`, the flag is
`Object.values(extractFields(fields)).some(value => value !== 'N/A')`; the argument is
`result.documents[0]?.fields`, `none` when it is absent. -/
def refinedIsOldVersion (documentFields : Option FieldBag) : Bool :=
  let fields := extractFieldsRefined (documentFields.getD [])
  (extractFieldsRefined (recordAsBag fields)).any fun p => p.2 != "N/A"

/-! ## Lemmas on the loop of `processSegmentData` -/

theorem segment_in_range_iff (col : Int) :
    ¬ (Int.fdiv col 2 + 1 < 1 ∨ Int.fdiv col 2 + 1 > 4) ↔ 0 ≤ col ∧ col ≤ 7 := by
  rw [Int.fdiv_eq_ediv col (by decide : (0 : Int) ≤ 2)]
  omega

theorem processBody_congr (cells1 cells2 : List CellElem)
    (h : ∀ r k : Int, r ≠ 0 → 0 ≤ k → k ≤ 6 → findCell r k cells1 = findCell r k cells2)
    (st : LoopState) (r col : Int) (content : JsText) :
    processBody cells1 st r col content = processBody cells2 st r col content := by
  unfold processBody
  by_cases hr0 : r = 0
  · simp only [hr0, if_true]
  · simp only [if_neg hr0]
    by_cases hseg : Int.fdiv col 2 + 1 < 1 ∨ Int.fdiv col 2 + 1 > 4
    · simp only [if_pos hseg]
    · simp only [if_neg hseg]
      have hcol := (segment_in_range_iff col).1 hseg
      by_cases hd : Int.tmod col 2 = 0
      · simp only [hd, decide_True, if_true]
      · have h0 : col ≠ 0 := by rintro rfl; exact hd (by decide)
        simp only [hd, decide_False, Bool.false_eq_true, if_false]
        unfold processCode
        rw [h r (col - 1) hr0 (by omega) (by omega)]

theorem processCell_congr (cells1 cells2 : List CellElem)
    (h : ∀ r k : Int, r ≠ 0 → 0 ≤ k → k ≤ 6 → findCell r k cells1 = findCell r k cells2)
    (st : LoopState) (e : CellElem) : processCell cells1 st e = processCell cells2 st e := by
  cases e with
  | none => rfl
  | some cell =>
    rcases cell with ⟨_ | r, _ | col, content⟩ <;> simp only [processCell]
    exact processBody_congr cells1 cells2 h st _ _ _

theorem forEachCell_congr (cells1 cells2 : List CellElem)
    (h : ∀ r k : Int, r ≠ 0 → 0 ≤ k → k ≤ 6 → findCell r k cells1 = findCell r k cells2)
    (l : List CellElem) (st : LoopState) :
    forEachCell cells1 l st = forEachCell cells2 l st := by
  induction l generalizing st with
  | nil => rfl
  | cons e es ih =>
    simp only [forEachCell, processCell_congr cells1 cells2 h st e]
    cases processCell cells2 st e with
    | error err => rfl
    | ok st2 => exact ih st2


theorem removeSelected_str_orEmpty (t : JsText) :
    removeSelected (.str t.orEmpty) = removeSelected t := by
  cases t <;> rfl

theorem findCell_ofRaw (r k : Int) (l : List RawCell) :
    findCell r k (l.map fun c => some c.toObj) = .ok ((cellAt l r k).map RawCell.toObj) := by
  induction l with
  | nil => rfl
  | cons d ds ih =>
    by_cases h : d.rowIndex = r ∧ d.columnIndex = k
    · simp [findCell, cellAt, RawCell.toObj, h]
    · have h2 : ¬ (d.toObj.rowIndex = some r ∧ d.toObj.columnIndex = some k) := by
        simpa [RawCell.toObj] using h
      simp only [List.map_cons, findCell, if_neg h2, ih, cellAt, List.find?_cons,
        decide_eq_false h]

theorem depth_ofRaw (cells : List RawCell) (c : RawCell) :
    removeSelected (.str (contentOrEmpty ((cellAt cells c.rowIndex (c.columnIndex - 1)).map
      RawCell.toObj))) = pairedDepth cells c := by
  unfold pairedDepth
  cases cellAt cells c.rowIndex (c.columnIndex - 1) with
  | none => rfl
  | some d => exact removeSelected_str_orEmpty d.content

theorem truthy_eq_isSome (t : JsText) : t.truthy = t.truthyVal.isSome := by
  cases t with
  | str s => by_cases h : s = "" <;> simp [JsText.truthy, JsText.truthyVal, h]
  | _ => rfl

theorem truthyVal_eq_some {t : JsText} {v : String} (h : t.truthyVal = some v) :
    t.truthy = true ∧ t.orEmpty = v ∧ v ≠ "" := by
  cases t with
  | str s =>
    by_cases hs : s = ""
    · simp [JsText.truthyVal, hs] at h
    · simp [JsText.truthyVal, hs] at h
      subst h
      simp [JsText.truthy, JsText.orEmpty, hs]
  | _ => simp [JsText.truthyVal] at h

theorem truthyVal_eq_none {t : JsText} (h : t.truthyVal = none) : t.truthy = false := by
  rw [truthy_eq_isSome, h]; rfl

theorem truthyVal_initLast (last : Int → JsText) (seg s : Int) :
    (initLast last seg s).truthyVal = (last s).truthyVal := by
  unfold initLast
  by_cases h : (last seg).truthy = true
  · simp [h]
  · simp only [h, Bool.false_eq_true, if_false]
    by_cases hs : s = seg
    · subst hs
      rw [Function.update_same]
      have : (last s).truthyVal.isSome = false := by
        rw [← truthy_eq_isSome]; simpa using h
      cases h2 : (last s).truthyVal with
      | none => rfl
      | some v => rw [h2] at this; simp at this
    · rw [Function.update_noteq hs]

theorem truthyVal_str {t : String} (h : t ≠ "") : (JsText.str t).truthyVal = some t := by
  simp [JsText.truthyVal, h]

/-- The substrate-code branch, when it returns, has found the depth cell without an
exception, pushed the entry `fillEntry` describes and refreshed the forward-fill state
as `nextValid` describes. -/
theorem processCode_ok {cells : List CellElem} {sd : SegmentData} {last : Int → JsText}
    {r col seg : Int} {trimmed : String} {st2 : LoopState}
    (h : processCode cells sd last r col seg trimmed = .ok st2) :
    ∃ found, findCell r (col - 1) cells = .ok found ∧
      st2.segmentData = pushEntry sd seg
        (fillEntry (removeSelected (.str (contentOrEmpty found))) (last seg).truthyVal trimmed) ∧
      ∀ s, (st2.lastValidContent s).truthyVal =
        if s = seg then nextValid (last seg).truthyVal trimmed else (last s).truthyVal := by
  unfold processCode at h
  cases hf : findCell r (col - 1) cells with
  | error e => rw [hf] at h; cases h
  | ok found =>
    rw [hf] at h
    simp only [Except.ok.injEq] at h
    subst h
    refine ⟨found, rfl, ?_, ?_⟩
    · cases hl : (last seg).truthyVal with
      | none =>
        have ht := truthyVal_eq_none hl
        by_cases hb : trimmed = ""
        · simp [hb, ht, fillEntry, isValidCode]
        · have hbeq : (trimmed == "") = false := by simp [hb]
          simp [hb, hbeq, fillEntry, isValidCode]
      | some v =>
        obtain ⟨ht, ho, hv0⟩ := truthyVal_eq_some hl
        by_cases hb : trimmed = ""
        · simp [hb, ht, ho, fillEntry, isValidCode]
        · have hbeq : (trimmed == "") = false := by simp [hb]
          simp [hb, hbeq, fillEntry, isValidCode]
    · intro s
      by_cases hb : trimmed = ""
      · by_cases hs : s = seg
        · subst hs; simp [hb, nextValid]
        · simp [hb, hs]
      · by_cases hv : isValidCode trimmed = true
        · have hv2 : hasOwnProperty validSubstrateCodes (toUpperCase trimmed) = true := hv
          by_cases hs : s = seg
          · subst hs; simp [hb, nextValid, hv, hv2, truthyVal_str hb]
          · simp [hb, hs, hv2, Function.update_noteq hs]
        · have hv2 : hasOwnProperty validSubstrateCodes (toUpperCase trimmed) = false := by
            simpa [isValidCode] using hv
          by_cases hs : s = seg
          · subst hs; simp [hb, nextValid, hv, hv2]
          · simp [hb, hs, hv2]

/-- The substrate-code branch on well-formed cells returns, pushes the specified entry
and refreshes the forward-fill state as specified. -/
theorem processCode_ofRaw (cells : List RawCell) (sd : SegmentData) (last : Int → JsText)
    (c : RawCell) (seg : Int) :
    ∃ st2, processCode (cells.map fun c => some c.toObj) sd last c.rowIndex c.columnIndex seg
        (normContent c.content) = .ok st2 ∧
      st2.segmentData = pushEntry sd seg (specEntry cells (last seg).truthyVal c) ∧
      ∀ s, (st2.lastValidContent s).truthyVal =
        if s = seg then specNextLast (last seg).truthyVal c else (last s).truthyVal := by
  have hret : ∃ st2, processCode (cells.map fun c => some c.toObj) sd last c.rowIndex
      c.columnIndex seg (normContent c.content) = .ok st2 := by
    unfold processCode
    simp only [findCell_ofRaw]
    exact ⟨_, rfl⟩
  obtain ⟨st2, hst⟩ := hret
  obtain ⟨found, hf, hsd, hlast⟩ := processCode_ok hst
  rw [findCell_ofRaw] at hf
  simp only [Except.ok.injEq] at hf
  subst hf
  rw [depth_ofRaw] at hsd
  exact ⟨st2, hst, hsd, hlast⟩

theorem pushEntry_mk (d1 d2 d3 d4 : List SegmentEntry) (e : SegmentEntry) :
    pushEntry (mkSegmentData d1 d2 d3 d4) 1 e = mkSegmentData (d1 ++ [e]) d2 d3 d4 ∧
    pushEntry (mkSegmentData d1 d2 d3 d4) 2 e = mkSegmentData d1 (d2 ++ [e]) d3 d4 ∧
    pushEntry (mkSegmentData d1 d2 d3 d4) 3 e = mkSegmentData d1 d2 (d3 ++ [e]) d4 ∧
    pushEntry (mkSegmentData d1 d2 d3 d4) 4 e = mkSegmentData d1 d2 d3 (d4 ++ [e]) := by
  simp [pushEntry, mkSegmentData]

theorem codeCells_cons (s : Int) (c : RawCell) (cs : List RawCell) :
    codeCells s (c :: cs) = codeCells s [c] ++ codeCells s cs := by
  simp only [codeCells, List.filter_cons, List.filter_nil]
  split <;> rfl

theorem codeCells_single_pos {s : Int} {c : RawCell}
    (h : c.rowIndex ≠ 0 ∧ c.columnIndex = 2 * s - 1) : codeCells s [c] = [c] := by
  simp [codeCells, isCodeCellOf, h]

theorem codeCells_single_neg {s : Int} {c : RawCell}
    (h : ¬ (c.rowIndex ≠ 0 ∧ c.columnIndex = 2 * s - 1)) : codeCells s [c] = [] := by
  simp only [codeCells, isCodeCellOf, List.filter_cons, List.filter_nil, decide_eq_false h]
  rfl

/-- One step of the loop on a well-formed cell, in specification terms. -/
theorem processCell_ofRaw (cells : List RawCell) (d1 d2 d3 d4 : List SegmentEntry)
    (last : Int → JsText) (c : RawCell) :
    ∃ st2, processCell (cells.map fun c => some c.toObj) ⟨mkSegmentData d1 d2 d3 d4, last⟩
        (some c.toObj) = .ok st2 ∧
      st2.segmentData = mkSegmentData
        (d1 ++ specFill cells (last 1).truthyVal (codeCells 1 [c]))
        (d2 ++ specFill cells (last 2).truthyVal (codeCells 2 [c]))
        (d3 ++ specFill cells (last 3).truthyVal (codeCells 3 [c]))
        (d4 ++ specFill cells (last 4).truthyVal (codeCells 4 [c])) ∧
      ∀ s, 1 ≤ s → s ≤ 4 → (st2.lastValidContent s).truthyVal =
        specLastAfter (last s).truthyVal (codeCells s [c]) := by
  simp only [processCell, RawCell.toObj]
  unfold processBody
  by_cases hr0 : c.rowIndex = 0
  · rw [if_pos hr0]
    refine ⟨_, rfl, ?_, ?_⟩
    · simp [codeCells_single_neg, hr0, specFill]
    · intro s _ _
      simp [codeCells_single_neg, hr0, specLastAfter]
  · simp only [if_neg hr0]
    by_cases hseg : Int.fdiv c.columnIndex 2 + 1 < 1 ∨ Int.fdiv c.columnIndex 2 + 1 > 4
    · have hcol : c.columnIndex < 0 ∨ 7 < c.columnIndex := by
        by_contra hne
        exact ((segment_in_range_iff c.columnIndex).2 (by omega)) hseg
      have hneg : ∀ s : Int, 1 ≤ s → s ≤ 4 →
          ¬ (c.rowIndex ≠ 0 ∧ c.columnIndex = 2 * s - 1) := by
        intro s h1 h4 h; omega
      rw [if_pos hseg]
      refine ⟨_, rfl, ?_, ?_⟩
      · simp [codeCells_single_neg (hneg 1 (by decide) (by decide)),
          codeCells_single_neg (hneg 2 (by decide) (by decide)),
          codeCells_single_neg (hneg 3 (by decide) (by decide)),
          codeCells_single_neg (hneg 4 (by decide) (by decide)), specFill]
      · intro s h1 h4
        simp [codeCells_single_neg (hneg s h1 h4), specLastAfter]
    · simp only [if_neg hseg]
      have hcol := (segment_in_range_iff c.columnIndex).1 hseg
      have hdiv : Int.fdiv c.columnIndex 2 = c.columnIndex / 2 :=
        Int.fdiv_eq_ediv _ (by decide)
      by_cases hd : Int.tmod c.columnIndex 2 = 0
      · have hmod : c.columnIndex % 2 = 0 := by
          rw [← Int.tmod_eq_emod hcol.1 (by decide)]; exact hd
        have hneg : ∀ s : Int, ¬ (c.rowIndex ≠ 0 ∧ c.columnIndex = 2 * s - 1) := by
          intro s h; omega
        simp only [hd, decide_True, if_true]
        refine ⟨_, rfl, ?_, ?_⟩
        · simp [codeCells_single_neg (hneg _), specFill]
        · intro s _ _
          simp [codeCells_single_neg (hneg s), specLastAfter, truthyVal_initLast]
      · have hmod : c.columnIndex % 2 = 1 := by
          have := Int.tmod_eq_emod hcol.1 (by decide : (0 : Int) ≤ 2)
          rw [this] at hd; omega
        simp only [hd, decide_False, Bool.false_eq_true, if_false]
        obtain ⟨st2, hst, hsd, hlast⟩ := processCode_ofRaw cells (mkSegmentData d1 d2 d3 d4)
          (initLast last (Int.fdiv c.columnIndex 2 + 1)) c (Int.fdiv c.columnIndex 2 + 1)
        refine ⟨st2, hst, ?_, ?_⟩
        · rw [hsd, truthyVal_initLast]
          have hc : c.columnIndex = 1 ∨ c.columnIndex = 3 ∨ c.columnIndex = 5 ∨
              c.columnIndex = 7 := by omega
          have hpos : ∀ s : Int, c.columnIndex = 2 * s - 1 → codeCells s [c] = [c] :=
            fun s h => codeCells_single_pos ⟨hr0, h⟩
          have hneg : ∀ s : Int, c.columnIndex ≠ 2 * s - 1 → codeCells s [c] = [] :=
            fun s h => codeCells_single_neg (fun h2 => h h2.2)
          rcases hc with h | h | h | h
          · rw [hpos 1 (by omega), hneg 2 (by omega), hneg 3 (by omega), hneg 4 (by omega), h]
            simp [specFill, (pushEntry_mk d1 d2 d3 d4 _).1, show Int.fdiv 1 2 + 1 = 1 by decide]
          · rw [hneg 1 (by omega), hpos 2 (by omega), hneg 3 (by omega), hneg 4 (by omega), h]
            simp [specFill, (pushEntry_mk d1 d2 d3 d4 _).2.1, show Int.fdiv 3 2 + 1 = 2 by decide]
          · rw [hneg 1 (by omega), hneg 2 (by omega), hpos 3 (by omega), hneg 4 (by omega), h]
            simp [specFill, (pushEntry_mk d1 d2 d3 d4 _).2.2.1,
              show Int.fdiv 5 2 + 1 = 3 by decide]
          · rw [hneg 1 (by omega), hneg 2 (by omega), hneg 3 (by omega), hpos 4 (by omega), h]
            simp [specFill, (pushEntry_mk d1 d2 d3 d4 _).2.2.2,
              show Int.fdiv 7 2 + 1 = 4 by decide]
        · intro s h1 h4
          rw [hlast s, truthyVal_initLast, truthyVal_initLast]
          by_cases hs : s = Int.fdiv c.columnIndex 2 + 1
          · have : c.columnIndex = 2 * s - 1 := by omega
            rw [if_pos hs, codeCells_single_pos ⟨hr0, this⟩, ← hs]
            rfl
          · have : c.columnIndex ≠ 2 * s - 1 := by omega
            rw [if_neg hs, codeCells_single_neg (fun h2 => this h2.2)]
            rfl


theorem specFill_append (cells : List RawCell) (last : Option String) (l1 l2 : List RawCell) :
    specFill cells last (l1 ++ l2) =
      specFill cells last l1 ++ specFill cells (specLastAfter last l1) l2 := by
  induction l1 generalizing last with
  | nil => rfl
  | cons c cs ih => simp [specFill, specLastAfter, ih] 

theorem specLastAfter_append (last : Option String) (l1 l2 : List RawCell) :
    specLastAfter last (l1 ++ l2) = specLastAfter (specLastAfter last l1) l2 := by
  simp [specLastAfter, List.foldl_append]

theorem specFill_length (cells : List RawCell) (last : Option String) (l : List RawCell) :
    (specFill cells last l).length = l.length := by
  induction l generalizing last with
  | nil => rfl
  | cons c cs ih => simp [specFill, ih]

/-- The loop on well-formed cells, in specification terms. -/
theorem forEachCell_ofRaw (cells cs : List RawCell) (d1 d2 d3 d4 : List SegmentEntry)
    (last : Int → JsText) :
    ∃ st2, forEachCell (cells.map fun c => some c.toObj) (cs.map fun c => some c.toObj)
        ⟨mkSegmentData d1 d2 d3 d4, last⟩ = .ok st2 ∧
      st2.segmentData = mkSegmentData
        (d1 ++ specFill cells (last 1).truthyVal (codeCells 1 cs))
        (d2 ++ specFill cells (last 2).truthyVal (codeCells 2 cs))
        (d3 ++ specFill cells (last 3).truthyVal (codeCells 3 cs))
        (d4 ++ specFill cells (last 4).truthyVal (codeCells 4 cs)) := by
  induction cs generalizing d1 d2 d3 d4 last with
  | nil => exact ⟨_, rfl, by simp [codeCells, specFill]⟩
  | cons c cs ih =>
    obtain ⟨st1, h1, hsd1, hl1⟩ := processCell_ofRaw cells d1 d2 d3 d4 last c
    obtain ⟨sd1, l1⟩ := st1
    simp only at hsd1 hl1
    subst hsd1
    obtain ⟨st2, h2, hsd2⟩ := ih _ _ _ _ l1
    refine ⟨st2, ?_, ?_⟩
    · simp only [List.map_cons, forEachCell, h1]
      exact h2
    · rw [hsd2, hl1 1 (by decide) (by decide), hl1 2 (by decide) (by decide),
        hl1 3 (by decide) (by decide), hl1 4 (by decide) (by decide),
        codeCells_cons 1 c cs, codeCells_cons 2 c cs, codeCells_cons 3 c cs,
        codeCells_cons 4 c cs]
      simp only [specFill_append, List.append_assoc]

/-- On well-formed cells `processSegmentData` returns, and each segment holds the
specified entries of its code cells. -/
theorem processSegmentData_ofRaw (cells : List RawCell) :
    processSegmentData (some (Table.ofRaw cells)) = .ok (mkSegmentData
      (specFill cells none (codeCells 1 cells)) (specFill cells none (codeCells 2 cells))
      (specFill cells none (codeCells 3 cells)) (specFill cells none (codeCells 4 cells))) := by
  obtain ⟨st2, h, hsd⟩ := forEachCell_ofRaw cells cells [] [] [] [] (fun _ => .undefined)
  simp only [processSegmentData, Table.ofRaw, initialSegmentData, h, hsd]
  rfl

/-- The data sequence of a segment `s` in `1..4` on well-formed cells. -/
theorem dataOf_processSegmentData (cells : List RawCell) (s : Int) (h1 : 1 ≤ s) (h4 : s ≤ 4) :
    ∃ sd, processSegmentData (some (Table.ofRaw cells)) = .ok sd ∧
      dataOf sd s = specFill cells none (codeCells s cells) := by
  refine ⟨_, processSegmentData_ofRaw cells, ?_⟩
  have hs : s = 1 ∨ s = 2 ∨ s = 3 ∨ s = 4 := by omega
  rcases hs with h | h | h | h <;> subst h <;> rfl


/-- One loop step, when it returns: either nothing is pushed and the truthy forward-fill
state is unchanged, or the element is a non-header cell of a code column `1, 3, 5, 7`
and one entry is pushed onto its segment. -/
theorem processCell_ok {cells : List CellElem} {st st2 : LoopState} {e : CellElem}
    (h : processCell cells st e = .ok st2) :
    (st2.segmentData = st.segmentData ∧
      ∀ s, (st2.lastValidContent s).truthyVal = (st.lastValidContent s).truthyVal) ∨
    ∃ c r col found, e = some c ∧ c.rowIndex = some r ∧ c.columnIndex = some col ∧ r ≠ 0 ∧
      (col = 1 ∨ col = 3 ∨ col = 5 ∨ col = 7) ∧ findCell r (col - 1) cells = .ok found ∧
      st2.segmentData = pushEntry st.segmentData ((col + 1) / 2)
        (fillEntry (removeSelected (.str (contentOrEmpty found)))
          (st.lastValidContent ((col + 1) / 2)).truthyVal (normContent c.content)) ∧
      ∀ s, (st2.lastValidContent s).truthyVal =
        if s = (col + 1) / 2 then
          nextValid (st.lastValidContent ((col + 1) / 2)).truthyVal (normContent c.content)
        else (st.lastValidContent s).truthyVal := by
  cases e with
  | none =>
    simp only [processCell, Except.ok.injEq] at h
    subst h
    exact Or.inl ⟨rfl, fun _ => rfl⟩
  | some c =>
    rcases c with ⟨_ | r, _ | col, content⟩ <;> simp only [processCell] at h
    · simp only [Except.ok.injEq] at h; subst h; exact Or.inl ⟨rfl, fun _ => rfl⟩
    · simp only [Except.ok.injEq] at h; subst h; exact Or.inl ⟨rfl, fun _ => rfl⟩
    · simp only [Except.ok.injEq] at h; subst h; exact Or.inl ⟨rfl, fun _ => rfl⟩
    · unfold processBody at h
      by_cases hr0 : r = 0
      · rw [if_pos hr0] at h
        simp only [Except.ok.injEq] at h; subst h; exact Or.inl ⟨rfl, fun _ => rfl⟩
      · rw [if_neg hr0] at h
        by_cases hseg : Int.fdiv col 2 + 1 < 1 ∨ Int.fdiv col 2 + 1 > 4
        · simp only [if_pos hseg] at h
          simp only [Except.ok.injEq] at h; subst h; exact Or.inl ⟨rfl, fun _ => rfl⟩
        · simp only [if_neg hseg] at h
          have hcol := (segment_in_range_iff col).1 hseg
          have hdiv : Int.fdiv col 2 = col / 2 := Int.fdiv_eq_ediv _ (by decide)
          by_cases hd : Int.tmod col 2 = 0
          · simp only [hd, decide_True, if_true, Except.ok.injEq] at h
            subst h
            exact Or.inl ⟨rfl, fun s => truthyVal_initLast _ _ s⟩
          · have hmod : col % 2 = 1 := by
              have := Int.tmod_eq_emod hcol.1 (by decide : (0 : Int) ≤ 2)
              rw [this] at hd; omega
            simp only [hd, decide_False, Bool.false_eq_true, if_false] at h
            have hsegeq : Int.fdiv col 2 + 1 = (col + 1) / 2 := by omega
            rw [hsegeq] at h
            obtain ⟨found, hf, hsd, hlast⟩ := processCode_ok h
            refine Or.inr ⟨_, r, col, found, rfl, rfl, rfl, hr0, by omega, hf, ?_, ?_⟩
            · rw [hsd, truthyVal_initLast]; rfl
            · intro s
              rw [hlast s, truthyVal_initLast, truthyVal_initLast]; rfl

theorem rangesOf_pushEntry (sd : SegmentData) (seg : Int) (e : SegmentEntry) :
    rangesOf (pushEntry sd seg e) = rangesOf sd := by
  simp only [rangesOf, pushEntry, List.map_map]
  apply List.map_congr_left
  intro p _
  by_cases h : p.1 = seg <;> simp [h]

theorem mem_allEntries_pushEntry {sd : SegmentData} {seg : Int} {e x : SegmentEntry}
    (h : x ∈ allEntries (pushEntry sd seg e)) : x ∈ allEntries sd ∨ x = e := by
  simp only [allEntries, pushEntry, List.mem_flatMap, List.mem_map] at h ⊢
  obtain ⟨p, ⟨q, hq, rfl⟩, hx⟩ := h
  by_cases hk : q.1 = seg
  · simp only [hk, if_true, List.mem_append, List.mem_singleton] at hx
    rcases hx with hx | hx
    · exact Or.inl ⟨q, hq, hx⟩
    · exact Or.inr hx
  · simp only [hk, if_false] at hx
    exact Or.inl ⟨q, hq, hx⟩

theorem entryInv_fillEntry (depth : String) (last : Option String) (t : String)
    (hlast : ∀ v, last = some v → isValidCode v = true) : EntryInv (fillEntry depth last t) := by
  cases last with
  | none =>
    refine ⟨rfl, by simp [fillEntry], ?_⟩
    intro hb _
    have ht : t = "" := by simpa [fillEntry] using hb
    subst ht
    exact ⟨rfl, (by decide : isValidCode "" = false)⟩
  | some v =>
    by_cases ht : t = ""
    · simp only [fillEntry, ht, if_true]
      exact ⟨rfl, fun _ => ⟨rfl, hlast v rfl⟩, fun _ h => by simp at h⟩
    · simp only [fillEntry, ht, if_false]
      exact ⟨rfl, fun h => by simp at h, fun h => by simp at h⟩

theorem lastInv_nextValid {last : Option String} {t : String}
    (hlast : ∀ v, last = some v → isValidCode v = true) :
    ∀ v, nextValid last t = some v → isValidCode v = true := by
  intro v hv
  unfold nextValid at hv
  by_cases h : t ≠ "" ∧ isValidCode t = true
  · rw [if_pos h] at hv
    simp only [Option.some.injEq] at hv
    subst hv; exact h.2
  · rw [if_neg h] at hv; exact hlast v hv

/-- The loop invariant of `processSegmentData`: the keys and range labels of
`segmentData`, the flag consistency of every entry and the validity of every truthy
`lastValidContent`. -/
theorem processCell_inv {cells : List CellElem} {st st2 : LoopState} {e : CellElem}
    (h : processCell cells st e = .ok st2)
    (hE : ∀ x ∈ allEntries st.segmentData, EntryInv x) (hL : LastInv st.lastValidContent) :
    rangesOf st2.segmentData = rangesOf st.segmentData ∧
    (∀ x ∈ allEntries st2.segmentData, EntryInv x) ∧ LastInv st2.lastValidContent := by
  rcases processCell_ok h with ⟨hsd, hl⟩ | ⟨c, r, col, found, _, _, _, _, _, _, hsd, hl⟩
  · refine ⟨by rw [hsd], by rw [hsd]; exact hE, ?_⟩
    intro s v hv
    rw [hl s] at hv
    exact hL s v hv
  · refine ⟨by rw [hsd, rangesOf_pushEntry], ?_, ?_⟩
    · intro x hx
      rw [hsd] at hx
      rcases mem_allEntries_pushEntry hx with hx | hx
      · exact hE x hx
      · subst hx
        exact entryInv_fillEntry _ _ _ (fun v hv => hL _ v hv)
    · intro s v hv
      rw [hl s] at hv
      by_cases hs : s = (col + 1) / 2
      · rw [if_pos hs] at hv
        exact lastInv_nextValid (fun v hv => hL _ v hv) v hv
      · rw [if_neg hs] at hv
        exact hL s v hv

theorem forEachCell_inv {cells : List CellElem} (l : List CellElem) {st st2 : LoopState}
    (h : forEachCell cells l st = .ok st2)
    (hE : ∀ x ∈ allEntries st.segmentData, EntryInv x) (hL : LastInv st.lastValidContent) :
    rangesOf st2.segmentData = rangesOf st.segmentData ∧
    (∀ x ∈ allEntries st2.segmentData, EntryInv x) ∧ LastInv st2.lastValidContent := by
  induction l generalizing st with
  | nil =>
    simp only [forEachCell, Except.ok.injEq] at h
    subst h
    exact ⟨rfl, hE, hL⟩
  | cons e es ih =>
    simp only [forEachCell] at h
    cases h1 : processCell cells st e with
    | error err => rw [h1] at h; cases h
    | ok st1 =>
      rw [h1] at h
      obtain ⟨hr1, hE1, hL1⟩ := processCell_inv h1 hE hL
      obtain ⟨hr2, hE2, hL2⟩ := ih h hE1 hL1
      exact ⟨hr2.trans hr1, hE2, hL2⟩

/-- Whatever the table, a returned `segmentData` has the four fixed keys and range
labels, and every entry is flag-consistent. -/
theorem processSegmentData_inv {table : Option Table} {sd : SegmentData}
    (h : processSegmentData table = .ok sd) :
    rangesOf sd = [(1, "0 - 19.5 m"), (2, "25 - 44.5 m"), (3, "50 - 69.5 m"), (4, "75 - 94.5 m")] ∧
    ∀ x ∈ allEntries sd, EntryInv x := by
  have hinit : ∀ x ∈ allEntries initialSegmentData, EntryInv x := by
    intro x hx; simp [allEntries, initialSegmentData, mkSegmentData] at hx
  cases table with
  | none =>
    simp only [processSegmentData, Except.ok.injEq] at h
    subst h; exact ⟨rfl, hinit⟩
  | some t =>
    rcases t with ⟨_ | cells⟩
    · simp only [processSegmentData, Except.ok.injEq] at h
      subst h; exact ⟨rfl, hinit⟩
    · simp only [processSegmentData] at h
      cases h1 : forEachCell cells cells ⟨initialSegmentData, fun _ => .undefined⟩ with
      | error err => rw [h1] at h; cases h
      | ok st2 =>
        rw [h1] at h
        simp only [Except.ok.injEq] at h
        subst h
        obtain ⟨hr, hE, _⟩ := forEachCell_inv cells h1 hinit
          (fun s v hv => by simp [JsText.truthyVal] at hv)
        exact ⟨hr.trans rfl, hE⟩

theorem mem_allEntries_of_mem_dataOf {sd : SegmentData} {s : Int} {e : SegmentEntry}
    (h : e ∈ dataOf sd s) : e ∈ allEntries sd := by
  unfold dataOf at h
  cases hl : sd.lookup s with
  | none => rw [hl] at h; simp at h
  | some seg =>
    rw [hl] at h
    simp only [allEntries, List.mem_flatMap]
    induction sd with
    | nil => simp at hl
    | cons p ps ih =>
      rcases p with ⟨k, sg⟩
      by_cases hk : s = k
      · subst hk
        simp only [List.lookup, beq_self_eq_true, Option.some.injEq] at hl
        subst hl
        exact ⟨_, List.mem_cons_self _ _, h⟩
      · have : (s == k) = false := by simp [hk]
        simp only [List.lookup, this] at hl
        obtain ⟨q, hq, hx⟩ := ih hl
        exact ⟨q, List.mem_cons_of_mem _ hq, hx⟩


/-! ## Lemmas on `calculateStats` and `generateDetailedReport` -/

theorem foldl_countCell (l : List SegmentEntry) (acc : Stats) :
    l.foldl countCell acc =
      { totalCells := acc.totalCells + l.length,
        validCells := acc.validCells + l.countP (fun e => e.isValid),
        invalidCells := acc.invalidCells + l.countP countsInvalid,
        filledCells := acc.filledCells + l.countP (fun e => e.filledFromAbove) } := by
  induction l generalizing acc with
  | nil => rfl
  | cons e es ih =>
    rw [List.foldl_cons, ih]
    rcases e with ⟨d, c, v, b, f⟩
    cases v <;> cases f <;>
      simp [countCell, countsInvalid, List.countP_cons] <;> omega

theorem foldl_stats (sd : SegmentData) (acc : Stats) :
    sd.foldl (fun acc p => p.2.data.foldl countCell acc) acc =
      { totalCells := acc.totalCells + (allEntries sd).length,
        validCells := acc.validCells + (allEntries sd).countP (fun e => e.isValid),
        invalidCells := acc.invalidCells + (allEntries sd).countP countsInvalid,
        filledCells := acc.filledCells + (allEntries sd).countP (fun e => e.filledFromAbove) } := by
  induction sd generalizing acc with
  | nil => rfl
  | cons p ps ih =>
    rw [List.foldl_cons, ih, foldl_countCell]
    simp [allEntries, List.flatMap_cons, List.countP_append, Nat.add_assoc]

/-- The four counters of `calculateStats` as counts over all entries. -/
theorem calculateStats_eq (sd : SegmentData) :
    calculateStats sd =
      { totalCells := (allEntries sd).length,
        validCells := (allEntries sd).countP (fun e => e.isValid),
        invalidCells := (allEntries sd).countP countsInvalid,
        filledCells := (allEntries sd).countP (fun e => e.filledFromAbove) } := by
  unfold calculateStats
  rw [foldl_stats]
  simp

theorem foldl_reportCell (seg : Int) (l : List SegmentEntry) (acc : List ReportRow) :
    l.foldl (reportCell seg) acc = acc ++ (l.filter hasIssue).map (reportRow seg) := by
  induction l generalizing acc with
  | nil => simp
  | cons e es ih =>
    rw [List.foldl_cons, ih]
    by_cases h : hasIssue e = true
    · have h2 : (!e.isValid || e.filledFromAbove) = true := h
      simp [reportCell, h2, List.filter_cons, h]
    · have h2 : ¬ (!e.isValid || e.filledFromAbove) = true := h
      simp [reportCell, h2, List.filter_cons, h]

theorem foldl_report (sd : SegmentData) (acc : List ReportRow) :
    sd.foldl (fun acc p => p.2.data.foldl (reportCell p.1) acc) acc =
      acc ++ sd.flatMap fun p => (p.2.data.filter hasIssue).map (reportRow p.1) := by
  induction sd generalizing acc with
  | nil => simp
  | cons p ps ih =>
    rw [List.foldl_cons, ih, foldl_reportCell]
    simp [List.flatMap_cons]

/-- The segment report: the reported entries of each segment, in segment order. -/
theorem reportData_eq (sd : SegmentData) (fields : List (String × String)) :
    (generateDetailedReport sd fields).reportData =
      sd.flatMap fun p => (p.2.data.filter hasIssue).map (reportRow p.1) := by
  simp [generateDetailedReport, foldl_report]


/-! ## Lemmas on the specified entries -/

theorem specLastAfter_snoc (last : Option String) (l : List RawCell) (c : RawCell) :
    specLastAfter last (l ++ [c]) = specNextLast (specLastAfter last l) c := by
  simp [specLastAfter, List.foldl_append]

theorem specLastAfter_stable (last : Option String) (mid : List RawCell)
    (hmid : ∀ m ∈ mid, ¬ (normContent m.content ≠ "" ∧ isValidCode (normContent m.content) = true)) :
    specLastAfter last mid = last := by
  induction mid generalizing last with
  | nil => rfl
  | cons m ms ih =>
    have h1 : specNextLast last m = last := by
      unfold specNextLast nextValid
      rw [if_neg (hmid m (List.mem_cons_self _ _))]
    simp only [specLastAfter, List.foldl_cons] at ih ⊢
    rw [h1]
    exact ih last (fun x hx => hmid x (List.mem_cons_of_mem _ hx))

theorem specFill_getElem? (cells : List RawCell) (last : Option String)
    (pre post : List RawCell) (b : RawCell) :
    (specFill cells last (pre ++ b :: post))[pre.length]? =
      some (specEntry cells (specLastAfter last pre) b) := by
  rw [specFill_append]
  rw [List.getElem?_append_right (by rw [specFill_length])]
  simp [specFill_length, specFill]

/-- The last valid content after a run of code cells is the normalized text of the
closest cell, going backwards, that holds a non-blank valid code. -/
theorem specLastAfter_none_eq (pre : List RawCell) :
    specLastAfter none pre =
      (pre.reverse.find? fun c =>
        decide (normContent c.content ≠ "" ∧ isValidCode (normContent c.content) = true)).map
        fun c => normContent c.content := by
  induction pre using List.reverseRecOn with
  | nil => rfl
  | append_singleton l c ih =>
    rw [specLastAfter_snoc, ih, List.reverse_append, List.reverse_singleton, List.singleton_append,
      List.find?_cons]
    unfold specNextLast nextValid
    by_cases h : normContent c.content ≠ "" ∧ isValidCode (normContent c.content) = true
    · rw [if_pos h, decide_eq_true h]; rfl
    · rw [if_neg h, decide_eq_false h]


/-! ## Claims on `processSegmentData` -/

/-- C1: `processSegmentData` on a null table or a table without `cells` returns the four
segments `1, 2, 3, 4` with their fixed range strings and empty data; on a table of any
well-formed cells it returns a `segmentData` with exactly these four keys and range
strings; and whatever the elements of `cells`, a returned `segmentData` has exactly
these keys and range strings. -/
theorem C1_four_segments_fixed_ranges :
    processSegmentData none = .ok
      [(1, ⟨"0 - 19.5 m", []⟩), (2, ⟨"25 - 44.5 m", []⟩),
       (3, ⟨"50 - 69.5 m", []⟩), (4, ⟨"75 - 94.5 m", []⟩)] ∧
    processSegmentData (some { cells := none }) = .ok
      [(1, ⟨"0 - 19.5 m", []⟩), (2, ⟨"25 - 44.5 m", []⟩),
       (3, ⟨"50 - 69.5 m", []⟩), (4, ⟨"75 - 94.5 m", []⟩)] ∧
    (∀ cells : List RawCell, ∃ sd, processSegmentData (some (Table.ofRaw cells)) = .ok sd ∧
      rangesOf sd =
        [(1, "0 - 19.5 m"), (2, "25 - 44.5 m"), (3, "50 - 69.5 m"), (4, "75 - 94.5 m")]) ∧
    (∀ (table : Option Table) (sd : SegmentData), processSegmentData table = .ok sd →
      rangesOf sd =
        [(1, "0 - 19.5 m"), (2, "25 - 44.5 m"), (3, "50 - 69.5 m"), (4, "75 - 94.5 m")]) := by
  refine ⟨rfl, rfl, ?_, ?_⟩
  · intro cells
    exact ⟨_, processSegmentData_ofRaw cells, rfl⟩
  · intro table sd h
    exact (processSegmentData_inv h).1

/-- C2: in a segment `s` of `1..4`, a non-header code cell `b` that is blank after
normalization and comes after a non-header code cell `v` of the segment carrying a
non-blank valid code, with no non-blank valid code in between (`v` is the most recent
one), is emitted with the normalized text of `v` as content (unchanged, letter case
included), `isBlank`, `filledFromAbove` and `isValid` all true. -/
theorem C2_forward_fill (cells : List RawCell) (s : Int) (h1 : 1 ≤ s) (h4 : s ≤ 4)
    (pre mid post : List RawCell) (v b : RawCell)
    (hsplit : codeCells s cells = pre ++ v :: (mid ++ b :: post))
    (hv : normContent v.content ≠ "" ∧ isValidCode (normContent v.content) = true)
    (hmid : ∀ m ∈ mid,
      ¬ (normContent m.content ≠ "" ∧ isValidCode (normContent m.content) = true))
    (hb : normContent b.content = "") :
    ∃ sd, processSegmentData (some (Table.ofRaw cells)) = .ok sd ∧
      (dataOf sd s)[pre.length + 1 + mid.length]? = some
        { depth := pairedDepth cells b, content := normContent v.content,
          isValid := true, isBlank := true, filledFromAbove := true } := by
  obtain ⟨sd, hsd, hdata⟩ := dataOf_processSegmentData cells s h1 h4
  refine ⟨sd, hsd, ?_⟩
  have hre : pre ++ v :: (mid ++ b :: post) = (pre ++ v :: mid) ++ b :: post := by simp
  have hlen : pre.length + 1 + mid.length = (pre ++ v :: mid).length := by
    simp only [List.length_append, List.length_cons]; omega
  rw [hdata, hsplit, hre, hlen, specFill_getElem?]
  have hlast : specLastAfter none (pre ++ v :: mid) = some (normContent v.content) := by
    rw [specLastAfter_append]
    have : specLastAfter (specLastAfter none pre) (v :: mid) =
        specLastAfter (specNextLast (specLastAfter none pre) v) mid := rfl
    rw [this, specLastAfter_stable _ mid hmid]
    unfold specNextLast nextValid
    rw [if_pos hv]
  rw [hlast]
  simp [specEntry, fillEntry, hb, hv.2]

/-- Witness of C2: the segment whose codes are `["HC", "", ""]` yields the entries of the
claim, and the upper- or lower-case spelling of the code is kept by the fill. -/
theorem C2_forward_fill_witness :
    processSegmentData (some (Table.ofRaw
        [⟨1, 1, .str "HC"⟩, ⟨2, 1, .str ""⟩, ⟨3, 1, .str ""⟩])) = .ok
      [(1, ⟨"0 - 19.5 m",
          [⟨"", "HC", true, false, false⟩, ⟨"", "HC", true, true, true⟩,
           ⟨"", "HC", true, true, true⟩]⟩),
       (2, ⟨"25 - 44.5 m", []⟩), (3, ⟨"50 - 69.5 m", []⟩), (4, ⟨"75 - 94.5 m", []⟩)] ∧
    ∃ sd, processSegmentData (some (Table.ofRaw
        [⟨1, 1, .str "hc"⟩, ⟨2, 1, .str "XX"⟩, ⟨3, 1, .null⟩])) = .ok sd ∧
      (dataOf sd 1)[2]? = some
        { depth := "", content := "hc", isValid := true, isBlank := true,
          filledFromAbove := true } :=
  ⟨rfl,
   C2_forward_fill [⟨1, 1, .str "hc"⟩, ⟨2, 1, .str "XX"⟩, ⟨3, 1, .null⟩] 1 (by decide)
     (by decide) [] [⟨2, 1, .str "XX"⟩] [] ⟨1, 1, .str "hc"⟩ ⟨3, 1, .null⟩ (by decide)
     (by decide) (by decide) (by decide)⟩

/-- Counterexample to C3 as stated: with the codes `["HC", "XX", ""]` in segment 1 the
blank third cell does not take the content `"XX"` of the closest earlier non-blank code
cell; it is emitted with content `"HC"`. -/
theorem C3_counterexample :
    ¬ (∀ (pre mid post : List RawCell) (v b : RawCell),
        codeCells 1 [⟨1, 1, .str "HC"⟩, ⟨2, 1, .str "XX"⟩, ⟨3, 1, .str ""⟩] =
          pre ++ v :: (mid ++ b :: post) →
        normContent v.content ≠ "" →
        (∀ m ∈ mid, normContent m.content = "") →
        normContent b.content = "" →
        ∃ sd e, processSegmentData (some (Table.ofRaw
            [⟨1, 1, .str "HC"⟩, ⟨2, 1, .str "XX"⟩, ⟨3, 1, .str ""⟩])) = .ok sd ∧
          (dataOf sd 1)[pre.length + 1 + mid.length]? = some e ∧
          e.content = normContent v.content) := by
  intro h
  obtain ⟨sd, e, hsd, he, hc⟩ := h [⟨1, 1, .str "HC"⟩] [] [] ⟨2, 1, .str "XX"⟩
    ⟨3, 1, .str ""⟩ (by decide) (by decide) (by simp) (by decide)
  have hval : processSegmentData (some (Table.ofRaw
      [⟨1, 1, .str "HC"⟩, ⟨2, 1, .str "XX"⟩, ⟨3, 1, .str ""⟩])) = .ok
      (mkSegmentData [⟨"", "HC", true, false, false⟩, ⟨"", "XX", false, false, false⟩,
        ⟨"", "HC", true, true, true⟩] [] [] []) := rfl
  rw [hval] at hsd
  simp only [Except.ok.injEq] at hsd
  subst hsd
  have he2 : e = ⟨"", "HC", true, true, true⟩ := by
    have : (dataOf (mkSegmentData [⟨"", "HC", true, false, false⟩,
        ⟨"", "XX", false, false, false⟩, ⟨"", "HC", true, true, true⟩] [] [] []) 1)[2]? =
        some ⟨"", "HC", true, true, true⟩ := rfl
    simp only [List.length_singleton, List.length_nil] at he
    rw [this] at he
    exact (Option.some.inj he).symm
  subst he2
  revert hc
  decide

/-- C3 (amended): the entry emitted for a blank code cell of a segment `s` of `1..4` has
as content the normalized text of the closest earlier code cell of the segment whose
normalized text is non-empty and, case-insensitively, a vocabulary code; when there is no
such cell the content is the empty string. -/
theorem C3_fill_from_nearest_valid (cells : List RawCell) (s : Int) (h1 : 1 ≤ s) (h4 : s ≤ 4)
    (pre post : List RawCell) (b : RawCell)
    (hsplit : codeCells s cells = pre ++ b :: post) (hb : normContent b.content = "") :
    ∃ sd e, processSegmentData (some (Table.ofRaw cells)) = .ok sd ∧
      (dataOf sd s)[pre.length]? = some e ∧
      e.content =
        match pre.reverse.find? fun c =>
          decide (normContent c.content ≠ "" ∧ isValidCode (normContent c.content) = true) with
        | some v => normContent v.content
        | none => "" := by
  obtain ⟨sd, hsd, hdata⟩ := dataOf_processSegmentData cells s h1 h4
  refine ⟨sd, specEntry cells (specLastAfter none pre) b, hsd, ?_, ?_⟩
  · rw [hdata, hsplit, specFill_getElem?]
  · rw [specLastAfter_none_eq]
    cases pre.reverse.find? fun c =>
        decide (normContent c.content ≠ "" ∧ isValidCode (normContent c.content) = true) with
    | none => simp [specEntry, fillEntry, hb]
    | some v => simp [specEntry, fillEntry, hb]

/-- Witness of the amended C3 on the codes `["HC", "XX", ""]`: the blank third cell is
emitted with content `"HC"`. -/
theorem C3_fill_from_nearest_valid_witness :
    ∃ sd e, processSegmentData (some (Table.ofRaw
        [⟨1, 1, .str "HC"⟩, ⟨2, 1, .str "XX"⟩, ⟨3, 1, .str ""⟩])) = .ok sd ∧
      (dataOf sd 1)[2]? = some e ∧ e.content = "HC" :=
  C3_fill_from_nearest_valid [⟨1, 1, .str "HC"⟩, ⟨2, 1, .str "XX"⟩, ⟨3, 1, .str ""⟩] 1
    (by decide) (by decide) [⟨1, 1, .str "HC"⟩, ⟨2, 1, .str "XX"⟩] [] ⟨3, 1, .str ""⟩
    (by decide) (by decide)


/-! ## Validity classification -/

theorem upperChar_toLower (c : Char) : upperChar c.toLower = upperChar c := by
  unfold Char.toLower
  by_cases h : c.toNat ≥ 65 ∧ c.toNat ≤ 90
  · simp only [h, and_self, if_true]
    have hc : c = Char.ofNat c.toNat := (Char.ofNat_toNat c).symm
    obtain ⟨h1, h2⟩ := h
    generalize c.toNat = n at hc h1 h2
    subst hc
    interval_cases n <;> decide
  · simp only [h, if_false]

theorem upperChars_map_toLower (l : List Char) :
    upperChars (l.map Char.toLower) = upperChars l := by
  induction l with
  | nil => rfl
  | cons c cs ih => simp only [List.map_cons, upperChars, upperChar_toLower, ih]

/-- Two strings that agree once their ASCII letters are put in lower case have the same
upper-case form, hence the same validity. -/
theorem isValidCode_congr_case (a b : String)
    (h : a.data.map Char.toLower = b.data.map Char.toLower) : isValidCode a = isValidCode b := by
  have : toUpperCase a = toUpperCase b := by
    unfold toUpperCase
    rw [← upperChars_map_toLower a.data, ← upperChars_map_toLower b.data, h]
  unfold isValidCode
  rw [this]

theorem hasOwnProperty_codes (k : String) :
    hasOwnProperty validSubstrateCodes k = true ↔
      k ∈ ["HC", "NIA", "RB", "OT", "SC", "SP", "SD", "RKC", "RC", "SI"] := by
  simp only [hasOwnProperty, validSubstrateCodes, List.any_cons, List.any_nil, Bool.or_false,
    Bool.or_eq_true, beq_iff_eq, List.mem_cons, List.mem_singleton, List.not_mem_nil, or_false,
    or_assoc]
  constructor <;> intro h <;>
    rcases h with h | h | h | h | h | h | h | h | h | h <;> simp [h]

/-- C4: for every entry emitted by `processSegmentData`, whatever the table, `isValid` is
true exactly when the upper-cased content is one of the ten vocabulary codes; two emitted
entries whose contents differ only in the case of their letters have the same `isValid`;
and both `"hc"` and `"HC"` are emitted valid. -/
theorem C4_validity_case_insensitive :
    (∀ (table : Option Table) (sd : SegmentData), processSegmentData table = .ok sd →
      ∀ (s : Int) (e : SegmentEntry), e ∈ dataOf sd s →
        (e.isValid = true ↔ toUpperCase e.content ∈
          ["HC", "NIA", "RB", "OT", "SC", "SP", "SD", "RKC", "RC", "SI"])) ∧
    (∀ (table1 table2 : Option Table) (sd1 sd2 : SegmentData),
      processSegmentData table1 = .ok sd1 → processSegmentData table2 = .ok sd2 →
      ∀ (s1 s2 : Int) (e1 e2 : SegmentEntry), e1 ∈ dataOf sd1 s1 → e2 ∈ dataOf sd2 s2 →
        e1.content.data.map Char.toLower = e2.content.data.map Char.toLower →
        e1.isValid = e2.isValid) ∧
    processSegmentData (some (Table.ofRaw [⟨1, 1, .str "hc"⟩, ⟨1, 3, .str "HC"⟩])) = .ok
      [(1, ⟨"0 - 19.5 m", [⟨"", "hc", true, false, false⟩]⟩),
       (2, ⟨"25 - 44.5 m", [⟨"", "HC", true, false, false⟩]⟩),
       (3, ⟨"50 - 69.5 m", []⟩), (4, ⟨"75 - 94.5 m", []⟩)] := by
  refine ⟨?_, ?_, rfl⟩
  · intro table sd h s e he
    have hinv := ((processSegmentData_inv h).2 e (mem_allEntries_of_mem_dataOf he)).1
    rw [hinv, isValidCode, hasOwnProperty_codes]
  · intro table1 table2 sd1 sd2 h1 h2 s1 s2 e1 e2 he1 he2 hcase
    rw [((processSegmentData_inv h1).2 e1 (mem_allEntries_of_mem_dataOf he1)).1,
      ((processSegmentData_inv h2).2 e2 (mem_allEntries_of_mem_dataOf he2)).1]
    exact isValidCode_congr_case _ _ hcase


/-! ## A wrong code, end to end -/

theorem mem_mkSegmentData (d1 d2 d3 d4 : List SegmentEntry) (s : Int) (h1 : 1 ≤ s)
    (h4 : s ≤ 4) :
    ∃ seg, (s, seg) ∈ mkSegmentData d1 d2 d3 d4 ∧
      seg.data = dataOf (mkSegmentData d1 d2 d3 d4) s := by
  have hs : s = 1 ∨ s = 2 ∨ s = 3 ∨ s = 4 := by omega
  rcases hs with h | h | h | h <;> subst h
  · exact ⟨⟨_, d1⟩, by simp [mkSegmentData], rfl⟩
  · exact ⟨⟨_, d2⟩, by simp [mkSegmentData], rfl⟩
  · exact ⟨⟨_, d3⟩, by simp [mkSegmentData], rfl⟩
  · exact ⟨⟨_, d4⟩, by simp [mkSegmentData], rfl⟩

/-- C5: on well-formed cells, a code cell `c` of a segment `s` of `1..4` whose normalized
content is non-empty and, upper-cased, none of the ten vocabulary codes is emitted with
`isValid = false` and `filledFromAbove = false`; `invalidCells` of `calculateStats` is the
number of entries with `!isValid && !filledFromAbove`, of which this entry is one; and
`generateDetailedReport` has a row for it with issue `"Invalid substrate code"`. -/
theorem C5_wrong_code_end_to_end (cells : List RawCell) (s : Int) (h1 : 1 ≤ s) (h4 : s ≤ 4)
    (pre post : List RawCell) (c : RawCell) (fields : List (String × String))
    (hsplit : codeCells s cells = pre ++ c :: post)
    (hne : normContent c.content ≠ "")
    (hbad : toUpperCase (normContent c.content) ∉
      ["HC", "NIA", "RB", "OT", "SC", "SP", "SD", "RKC", "RC", "SI"]) :
    ∃ sd e, processSegmentData (some (Table.ofRaw cells)) = .ok sd ∧
      (dataOf sd s)[pre.length]? = some e ∧
      e.content = normContent c.content ∧ e.isValid = false ∧ e.filledFromAbove = false ∧
      (calculateStats sd).invalidCells =
        (allEntries sd).countP (fun x => !x.isValid && !x.filledFromAbove) ∧
      e ∈ allEntries sd ∧ 1 ≤ (calculateStats sd).invalidCells ∧
      ({ segment := s, depth := removeSelected (.str e.depth),
         originalContent := removeSelected (.str e.content),
         processedContent := removeSelected (.str e.content),
         isValid := "No", filledFromAbove := "No",
         issue := "Invalid substrate code" } : ReportRow) ∈
        (generateDetailedReport sd fields).reportData := by
  have hinvalid : isValidCode (normContent c.content) = false := by
    cases hv : isValidCode (normContent c.content) with
    | false => rfl
    | true => exact absurd ((hasOwnProperty_codes _).1 hv) hbad
  obtain ⟨sd, hsd, hdata⟩ := dataOf_processSegmentData cells s h1 h4
  have hget : (dataOf sd s)[pre.length]? = some (specEntry cells (specLastAfter none pre) c) := by
    rw [hdata, hsplit, specFill_getElem?]
  have hE : specEntry cells (specLastAfter none pre) c =
      ⟨pairedDepth cells c, normContent c.content, false, false, false⟩ := by
    unfold specEntry fillEntry
    cases specLastAfter none pre with
    | none => simp [hne, hinvalid]
    | some v => simp [hne, hinvalid]
  rw [hE] at hget
  have hmemData : (⟨pairedDepth cells c, normContent c.content, false, false, false⟩ :
      SegmentEntry) ∈ dataOf sd s := List.getElem?_mem hget
  have hmem := mem_allEntries_of_mem_dataOf hmemData
  have hcount : (calculateStats sd).invalidCells =
      (allEntries sd).countP (fun x => !x.isValid && !x.filledFromAbove) := by
    rw [calculateStats_eq]; rfl
  refine ⟨sd, _, hsd, hget, rfl, rfl, rfl, hcount, hmem, ?_, ?_⟩
  · rw [hcount]
    exact List.countP_pos_iff.2 ⟨_, hmem, rfl⟩
  · rw [reportData_eq]
    have hsdeq := processSegmentData_ofRaw cells
    rw [hsd] at hsdeq
    have hsdeq2 := Except.ok.inj hsdeq
    obtain ⟨seg, hseg, hsegdata⟩ := mem_mkSegmentData
      (specFill cells none (codeCells 1 cells)) (specFill cells none (codeCells 2 cells))
      (specFill cells none (codeCells 3 cells)) (specFill cells none (codeCells 4 cells)) s h1 h4
    rw [← hsdeq2] at hseg hsegdata
    rw [List.mem_flatMap]
    refine ⟨(s, seg), hseg, ?_⟩
    rw [List.mem_map]
    refine ⟨⟨pairedDepth cells c, normContent c.content, false, false, false⟩, ?_, ?_⟩
    · rw [List.mem_filter]
      exact ⟨by rw [hsegdata]; exact hmemData, rfl⟩
    · rfl

/-- Witness of C5: the wrong code `"XX"` in segment 1, after a valid `"HC"`. -/
theorem C5_wrong_code_end_to_end_witness :
    (∃ sd e, processSegmentData (some (Table.ofRaw
        [⟨1, 0, .str "5"⟩, ⟨1, 1, .str "HC"⟩, ⟨2, 0, .str "10"⟩, ⟨2, 1, .str "XX"⟩])) = .ok sd ∧
      (dataOf sd 1)[1]? = some e ∧
      e.content = "XX" ∧ e.isValid = false ∧ e.filledFromAbove = false ∧
      (calculateStats sd).invalidCells =
        (allEntries sd).countP (fun x => !x.isValid && !x.filledFromAbove) ∧
      e ∈ allEntries sd ∧ 1 ≤ (calculateStats sd).invalidCells ∧
      ({ segment := 1, depth := removeSelected (.str e.depth),
         originalContent := removeSelected (.str e.content),
         processedContent := removeSelected (.str e.content),
         isValid := "No", filledFromAbove := "No",
         issue := "Invalid substrate code" } : ReportRow) ∈
        (generateDetailedReport sd []).reportData) ∧
    calculateStats (mkSegmentData
      [⟨"5", "HC", true, false, false⟩, ⟨"10", "XX", false, false, false⟩] [] [] []) =
      ⟨2, 1, 1, 0⟩ ∧
    (generateDetailedReport (mkSegmentData
      [⟨"5", "HC", true, false, false⟩, ⟨"10", "XX", false, false, false⟩] [] [] [])
      []).reportData = [⟨1, "10", "XX", "XX", "No", "No", "Invalid substrate code"⟩] :=
  ⟨C5_wrong_code_end_to_end
    [⟨1, 0, .str "5"⟩, ⟨1, 1, .str "HC"⟩, ⟨2, 0, .str "10"⟩, ⟨2, 1, .str "XX"⟩] 1
    (by decide) (by decide) [⟨1, 1, .str "HC"⟩] [] ⟨2, 1, .str "XX"⟩ [] (by decide)
    (by decide) (by decide), by decide, by decide⟩

/-! ## Entries, cells and paired depths -/

theorem specFill_forall₂ (cells : List RawCell) (last : Option String) (l : List RawCell) :
    List.Forall₂ (fun c e => ∃ last2, e = specEntry cells last2 c) l (specFill cells last l) := by
  induction l generalizing last with
  | nil => exact List.Forall₂.nil
  | cons c cs ih => exact List.Forall₂.cons ⟨last, rfl⟩ (ih _)

theorem specEntry_depth (cells : List RawCell) (last : Option String) (c : RawCell) :
    (specEntry cells last c).depth = pairedDepth cells c := by
  unfold specEntry fillEntry
  cases last with
  | none => rfl
  | some v => by_cases h : normContent c.content = "" <;> simp [h]

theorem specEntry_isBlank (cells : List RawCell) (last : Option String) (c : RawCell) :
    (specEntry cells last c).isBlank = decide (normContent c.content = "") := by
  unfold specEntry fillEntry
  cases last with
  | none => rfl
  | some v => by_cases h : normContent c.content = "" <;> simp [h]

theorem codeCells_eq_nil_of_even (s : Int) (cells : List RawCell)
    (h : ∀ c ∈ cells, c.columnIndex % 2 = 0) : codeCells s cells = [] := by
  simp only [codeCells, List.filter_eq_nil_iff, isCodeCellOf, decide_eq_true_eq]
  intro c hc hcode
  have := h c hc
  omega

/-- C6: on well-formed cells and for a segment `s` of `1..4`, the data sequence of `s` has
one entry per input cell with `rowIndex ≠ 0` and `columnIndex = 2s - 1`, in the order of
these cells in the input (the `i`-th entry is built from the `i`-th such cell: it carries
that cell's paired depth and blankness); and a table whose cells all lie in even columns
yields four empty data sequences. -/
theorem C6_one_entry_per_code_cell (cells : List RawCell) (s : Int) (h1 : 1 ≤ s) (h4 : s ≤ 4) :
    ∃ sd, processSegmentData (some (Table.ofRaw cells)) = .ok sd ∧
      (dataOf sd s).length =
        (cells.filter fun c => decide (c.rowIndex ≠ 0 ∧ c.columnIndex = 2 * s - 1)).length ∧
      List.Forall₂
        (fun c e => (∃ last, e = specEntry cells last c) ∧ e.depth = pairedDepth cells c ∧
          e.isBlank = decide (normContent c.content = ""))
        (cells.filter fun c => decide (c.rowIndex ≠ 0 ∧ c.columnIndex = 2 * s - 1))
        (dataOf sd s) ∧
      ((∀ c ∈ cells, c.columnIndex % 2 = 0) →
        sd = [(1, ⟨"0 - 19.5 m", []⟩), (2, ⟨"25 - 44.5 m", []⟩),
              (3, ⟨"50 - 69.5 m", []⟩), (4, ⟨"75 - 94.5 m", []⟩)]) := by
  obtain ⟨sd, hsd, hdata⟩ := dataOf_processSegmentData cells s h1 h4
  have hcc : (cells.filter fun c => decide (c.rowIndex ≠ 0 ∧ c.columnIndex = 2 * s - 1)) =
      codeCells s cells := rfl
  refine ⟨sd, hsd, ?_, ?_, ?_⟩
  · rw [hdata, specFill_length, hcc]
  · rw [hdata, hcc]
    refine (specFill_forall₂ cells none (codeCells s cells)).imp ?_
    rintro c e ⟨last, rfl⟩
    exact ⟨⟨last, rfl⟩, specEntry_depth _ _ _, specEntry_isBlank _ _ _⟩
  · intro heven
    have h := processSegmentData_ofRaw cells
    rw [hsd, codeCells_eq_nil_of_even 1 cells heven, codeCells_eq_nil_of_even 2 cells heven,
      codeCells_eq_nil_of_even 3 cells heven, codeCells_eq_nil_of_even 4 cells heven] at h
    exact Except.ok.inj h

/-- Witness of C6: two code cells of segment 2 in rows 2 and 1, a depth cell and a header
cell. -/
theorem C6_one_entry_per_code_cell_witness :
    ∃ sd, processSegmentData (some (Table.ofRaw
        [⟨0, 3, .str "Code"⟩, ⟨2, 3, .str "SC"⟩, ⟨2, 2, .str "30"⟩, ⟨1, 3, .str "rb"⟩])) =
        .ok sd ∧
      (dataOf sd 2).length =
        (([⟨0, 3, .str "Code"⟩, ⟨2, 3, .str "SC"⟩, ⟨2, 2, .str "30"⟩, ⟨1, 3, .str "rb"⟩] :
          List RawCell).filter fun c =>
            decide (c.rowIndex ≠ 0 ∧ c.columnIndex = 2 * 2 - 1)).length ∧
      List.Forall₂
        (fun c e => (∃ last, e = specEntry
            [⟨0, 3, .str "Code"⟩, ⟨2, 3, .str "SC"⟩, ⟨2, 2, .str "30"⟩, ⟨1, 3, .str "rb"⟩]
            last c) ∧
          e.depth = pairedDepth
            [⟨0, 3, .str "Code"⟩, ⟨2, 3, .str "SC"⟩, ⟨2, 2, .str "30"⟩, ⟨1, 3, .str "rb"⟩] c ∧
          e.isBlank = decide (normContent c.content = ""))
        (([⟨0, 3, .str "Code"⟩, ⟨2, 3, .str "SC"⟩, ⟨2, 2, .str "30"⟩, ⟨1, 3, .str "rb"⟩] :
          List RawCell).filter fun c =>
            decide (c.rowIndex ≠ 0 ∧ c.columnIndex = 2 * 2 - 1))
        (dataOf sd 2) ∧
      ((∀ c ∈ ([⟨0, 3, .str "Code"⟩, ⟨2, 3, .str "SC"⟩, ⟨2, 2, .str "30"⟩,
          ⟨1, 3, .str "rb"⟩] : List RawCell), c.columnIndex % 2 = 0) →
        sd = [(1, ⟨"0 - 19.5 m", []⟩), (2, ⟨"25 - 44.5 m", []⟩),
              (3, ⟨"50 - 69.5 m", []⟩), (4, ⟨"75 - 94.5 m", []⟩)]) :=
  C6_one_entry_per_code_cell
    [⟨0, 3, .str "Code"⟩, ⟨2, 3, .str "SC"⟩, ⟨2, 2, .str "30"⟩, ⟨1, 3, .str "rb"⟩] 2
    (by decide) (by decide)

/-- C7: on well-formed cells, the entry emitted for a code cell `c` of a segment `s` of
`1..4` has as depth the normalized content (marker removed, trimmed) of the first cell of
the input at row `c.rowIndex` and column `c.columnIndex - 1`, and the empty string when
there is no such cell or when its content is null, absent or empty. -/
theorem C7_depth_pairing (cells : List RawCell) (s : Int) (h1 : 1 ≤ s) (h4 : s ≤ 4) :
    ∃ sd, processSegmentData (some (Table.ofRaw cells)) = .ok sd ∧
      List.Forall₂
        (fun c e =>
          (∀ d, (cells.find? fun d =>
              decide (d.rowIndex = c.rowIndex ∧ d.columnIndex = c.columnIndex - 1)) = some d →
            e.depth = removeSelected d.content ∧
            (d.content = .null ∨ d.content = .undefined ∨ d.content = .str "" →
              e.depth = "")) ∧
          ((cells.find? fun d =>
              decide (d.rowIndex = c.rowIndex ∧ d.columnIndex = c.columnIndex - 1)) = none →
            e.depth = ""))
        (codeCells s cells) (dataOf sd s) := by
  obtain ⟨sd, hsd, hdata⟩ := dataOf_processSegmentData cells s h1 h4
  refine ⟨sd, hsd, ?_⟩
  rw [hdata]
  refine (specFill_forall₂ cells none (codeCells s cells)).imp ?_
  rintro c e ⟨last, rfl⟩
  rw [specEntry_depth]
  unfold pairedDepth cellAt
  refine ⟨?_, ?_⟩
  · intro d hd
    rw [hd]
    refine ⟨rfl, ?_⟩
    rintro (h | h | h) <;> simp only [h] <;> rfl
  · intro hn
    rw [hn]

/-- Witness of C7: the code cell at row 1, column 3 is paired with the first of two cells
at row 1, column 2, whose content `" :selected: 30 "` is normalized to `"30"`. -/
theorem C7_depth_pairing_witness :
    (∃ sd, processSegmentData (some (Table.ofRaw
        [⟨1, 3, .str "SC"⟩, ⟨1, 2, .str " :selected: 30 "⟩, ⟨1, 2, .str "35"⟩])) = .ok sd ∧
      List.Forall₂
        (fun c e =>
          (∀ d, (([⟨1, 3, .str "SC"⟩, ⟨1, 2, .str " :selected: 30 "⟩, ⟨1, 2, .str "35"⟩] :
              List RawCell).find? fun d =>
              decide (d.rowIndex = c.rowIndex ∧ d.columnIndex = c.columnIndex - 1)) = some d →
            e.depth = removeSelected d.content ∧
            (d.content = .null ∨ d.content = .undefined ∨ d.content = .str "" →
              e.depth = "")) ∧
          ((([⟨1, 3, .str "SC"⟩, ⟨1, 2, .str " :selected: 30 "⟩, ⟨1, 2, .str "35"⟩] :
              List RawCell).find? fun d =>
              decide (d.rowIndex = c.rowIndex ∧ d.columnIndex = c.columnIndex - 1)) = none →
            e.depth = ""))
        (codeCells 2 [⟨1, 3, .str "SC"⟩, ⟨1, 2, .str " :selected: 30 "⟩, ⟨1, 2, .str "35"⟩])
        (dataOf sd 2)) ∧
    processSegmentData (some (Table.ofRaw
        [⟨1, 3, .str "SC"⟩, ⟨1, 2, .str " :selected: 30 "⟩, ⟨1, 2, .str "35"⟩])) = .ok
      [(1, ⟨"0 - 19.5 m", []⟩), (2, ⟨"25 - 44.5 m", [⟨"30", "SC", true, false, false⟩]⟩),
       (3, ⟨"50 - 69.5 m", []⟩), (4, ⟨"75 - 94.5 m", []⟩)] :=
  ⟨C7_depth_pairing
    [⟨1, 3, .str "SC"⟩, ⟨1, 2, .str " :selected: 30 "⟩, ⟨1, 2, .str "35"⟩] 2
    (by decide) (by decide), rfl⟩


/-! ## Discarded cells -/

theorem findCell_insert (r k : Int) (pre post : List CellElem) (x : CellObj)
    (hx : x.columnIndex ≠ some k) :
    findCell r k (pre ++ some x :: post) = findCell r k (pre ++ post) := by
  induction pre with
  | nil =>
    have : ¬ (x.rowIndex = some r ∧ x.columnIndex = some k) := fun h => hx h.2
    simp only [List.nil_append, findCell, if_neg this]
  | cons e es ih =>
    cases e with
    | none => rfl
    | some c =>
      rw [List.cons_append, List.cons_append]
      simp only [findCell]
      rw [ih]

theorem processCell_discard (cells : List CellElem) (st : LoopState) (x : CellObj) (col : Int)
    (hx : x.columnIndex = some col) (hcol : col < 0 ∨ 8 ≤ col) :
    processCell cells st (some x) = .ok st := by
  rcases x with ⟨_ | r, xc, content⟩
  · simp only [processCell]
  · simp only at hx
    subst hx
    simp only [processCell]
    unfold processBody
    by_cases hr0 : r = 0
    · rw [if_pos hr0]
    · rw [if_neg hr0]
      have hseg : Int.fdiv col 2 + 1 < 1 ∨ Int.fdiv col 2 + 1 > 4 := by
        by_contra hne
        have := (segment_in_range_iff col).1 hne
        omega
      simp only [if_pos hseg]

theorem forEachCell_skip (cells pre post : List CellElem) (x : CellElem)
    (h : ∀ st, processCell cells st x = .ok st) (st : LoopState) :
    forEachCell cells (pre ++ x :: post) st = forEachCell cells (pre ++ post) st := by
  induction pre generalizing st with
  | nil => simp only [List.nil_append, forEachCell, h st]
  | cons e es ih =>
    simp only [List.cons_append, forEachCell]
    cases processCell cells st e with
    | error err => rfl
    | ok st2 => exact ih st2

theorem processCell_header (cells : List CellElem) (st : LoopState) (e : CellElem)
    (h : isHeaderCell e = true) : processCell cells st e = .ok st := by
  cases e with
  | none => rfl
  | some c =>
    rcases c with ⟨_ | r, _ | col, content⟩ <;> simp [isHeaderCell] at h <;>
      simp only [processCell]
    subst h
    simp [processBody]

theorem findCell_filter_header (r k : Int) (hr : r ≠ 0) (l : List CellElem) :
    findCell r k (l.filter fun e => !isHeaderCell e) = findCell r k l := by
  induction l with
  | nil => rfl
  | cons e es ih =>
    cases e with
    | none => simp [List.filter_cons, isHeaderCell, findCell]
    | some c =>
      by_cases hh : isHeaderCell (some c) = true
      · have hrow : c.rowIndex = some 0 := by simpa [isHeaderCell] using hh
        have hno : ¬ (c.rowIndex = some r ∧ c.columnIndex = some k) := by
          rintro ⟨h1, _⟩
          rw [hrow] at h1
          exact hr (Option.some.inj h1).symm
        simp only [List.filter_cons, hh, Bool.not_true, Bool.false_eq_true, if_false, findCell,
          if_neg hno, ih]
      · have hh2 : isHeaderCell (some c) = false := by simpa using hh
        simp only [List.filter_cons, hh2, Bool.not_false, if_true, findCell, ih]

theorem forEachCell_filter_header (cells l : List CellElem) (st : LoopState) :
    forEachCell cells (l.filter fun e => !isHeaderCell e) st = forEachCell cells l st := by
  induction l generalizing st with
  | nil => rfl
  | cons e es ih =>
    by_cases hh : isHeaderCell e = true
    · simp only [List.filter_cons, hh, Bool.not_true, Bool.false_eq_true, if_false, forEachCell,
        processCell_header cells st e hh]
      exact ih st
    · have hh2 : isHeaderCell e = false := by simpa using hh
      simp only [List.filter_cons, hh2, Bool.not_false, if_true, forEachCell]
      cases processCell cells st e with
      | error err => rfl
      | ok st2 => exact ih st2

/-- C8: inserting, anywhere in `cells`, a cell object whose `columnIndex` is negative or at
least 8 (a segment outside `1..4`) leaves the outcome of `processSegmentData` unchanged,
whatever the other elements, the row and the content of the inserted cell. -/
theorem C8_out_of_range_column_discarded (pre post : List CellElem) (x : CellObj) (col : Int)
    (hx : x.columnIndex = some col) (hcol : col < 0 ∨ 8 ≤ col) :
    processSegmentData (some { cells := some (pre ++ some x :: post) }) =
      processSegmentData (some { cells := some (pre ++ post) }) := by
  have hfind : ∀ r k : Int, r ≠ 0 → 0 ≤ k → k ≤ 6 →
      findCell r k (pre ++ some x :: post) = findCell r k (pre ++ post) := by
    intro r k _ h0 h6
    apply findCell_insert
    rw [hx]
    intro h
    have := Option.some.inj h
    omega
  simp only [processSegmentData]
  rw [forEachCell_congr _ _ hfind,
    forEachCell_skip _ pre post (some x) (fun st => processCell_discard _ st x col hx hcol)]

/-- Witness of C8: a cell in column 9 (segment 5) inserted between a code cell and a blank
code cell of segment 1. -/
theorem C8_out_of_range_column_discarded_witness :
    processSegmentData (some ⟨some ([some ⟨some 1, some 1, .str "HC"⟩] ++
        some ⟨some 2, some 9, .str "SC"⟩ :: [some ⟨some 2, some 1, .str ""⟩])⟩) =
      processSegmentData (some ⟨some ([some ⟨some 1, some 1, .str "HC"⟩] ++
        [some ⟨some 2, some 1, .str ""⟩])⟩) :=
  C8_out_of_range_column_discarded [some ⟨some 1, some 1, .str "HC"⟩]
    [some ⟨some 2, some 1, .str ""⟩] ⟨some 2, some 9, .str "SC"⟩ 9 rfl (by decide)

/-- C9: removing every header cell (`rowIndex = 0`) from `cells` leaves the outcome of
`processSegmentData` unchanged; a header cell leaves the loop state (entries and
forward-fill state) as it is; and the depth lookup of a non-header row finds the same
cell with or without the header cells. -/
theorem C9_header_row_skipped :
    (∀ cells : List CellElem,
      processSegmentData (some { cells := some (cells.filter fun e => !isHeaderCell e) }) =
        processSegmentData (some { cells := some cells })) ∧
    (∀ (cells : List CellElem) (st : LoopState) (c : CellObj), c.rowIndex = some 0 →
      processCell cells st (some c) = .ok st) ∧
    (∀ (cells : List CellElem) (r k : Int), r ≠ 0 →
      findCell r k (cells.filter fun e => !isHeaderCell e) = findCell r k cells) := by
  refine ⟨?_, ?_, ?_⟩
  · intro cells
    simp only [processSegmentData]
    rw [forEachCell_congr _ cells (fun r k hr _ _ => findCell_filter_header r k hr cells),
      forEachCell_filter_header]
  · intro cells st c hc
    exact processCell_header cells st (some c) (by simp [isHeaderCell, hc])
  · intro cells r k hr
    exact findCell_filter_header r k hr cells

/-- C10 (failing input): with a `null` element ahead of a code cell, the depth lookup
reads `rowIndex` of `null` and `processSegmentData` throws, although the loop itself
skips `null` elements and objects without `rowIndex` or `columnIndex`. -/
theorem C10_null_element_throws :
    processSegmentData (some ⟨some [none, some ⟨some 1, some 1, .str "HC"⟩]⟩) =
      .error .typeError ∧
    processSegmentData (some ⟨some [none, some ⟨none, some 1, .str "HC"⟩,
        some ⟨some 1, none, .str "HC"⟩, some ⟨some 1, some 0, .str "5"⟩]⟩) = .ok
      [(1, ⟨"0 - 19.5 m", []⟩), (2, ⟨"25 - 44.5 m", []⟩),
       (3, ⟨"50 - 69.5 m", []⟩), (4, ⟨"75 - 94.5 m", []⟩)] ∧
    processSegmentData (some ⟨some [some ⟨none, some 1, .str "HC"⟩,
        some ⟨some 1, some 1, .str "HC"⟩]⟩) = .ok
      [(1, ⟨"0 - 19.5 m", [⟨"", "HC", true, false, false⟩]⟩), (2, ⟨"25 - 44.5 m", []⟩),
       (3, ⟨"50 - 69.5 m", []⟩), (4, ⟨"75 - 94.5 m", []⟩)] :=
  ⟨rfl, rfl, rfl⟩

/-! ## Lemmas on `removeSelected` -/

theorem stripMarker_eq_drop (k : Nat) (l : List Char) :
    stripMarker k l = stripMarker 0 (l.drop k) := by
  induction k generalizing l with
  | zero => rfl
  | succ k ih =>
    cases l with
    | nil => rfl
    | cons c cs => simp only [stripMarker, List.drop_succ_cons]; exact ih cs

/-- The scan of the model deletes the occurrences the reference definition deletes. -/
theorem stripMarker_eq_ref (l : List Char) : stripMarker 0 l = deleteMarkerRef l := by
  obtain ⟨n, h⟩ : ∃ n, l.length = n := ⟨_, rfl⟩
  induction n using Nat.strong_induction_on generalizing l with
  | _ n ih =>
    cases l with
    | nil => simp [stripMarker, deleteMarkerRef]
    | cons c cs =>
      rw [deleteMarkerRef]
      simp only [stripMarker]
      by_cases hp : selectedMarker.isPrefixOf (c :: cs) = true
      · rw [if_pos hp, if_pos hp, stripMarker_eq_drop]
        subst h
        exact ih _ (by simp only [List.length_drop, List.length_cons]; omega) _ rfl
      · rw [if_neg hp, if_neg hp]
        subst h
        rw [ih _ (by simp) cs rfl]

theorem removeSelected_eq_ref (v : JsText) : removeSelected v = removeSelectedRef v := by
  cases v with
  | str s => simp only [removeSelected, removeSelectedRef, stripMarker_eq_ref]
  | undefined => rfl
  | null => rfl

theorem stripMarker_length_le (k : Nat) (l : List Char) :
    (stripMarker k l).length ≤ l.length - k := by
  obtain ⟨n, h⟩ : ∃ n, l.length = n := ⟨_, rfl⟩
  induction n using Nat.strong_induction_on generalizing l k with
  | _ n ih =>
    cases l with
    | nil => simp [stripMarker]
    | cons c cs =>
      subst h
      cases k with
      | succ k =>
        simp only [stripMarker, List.length_cons]
        have := ih cs.length (by simp) k cs rfl
        omega
      | zero =>
        simp only [stripMarker]
        by_cases hp : selectedMarker.isPrefixOf (c :: cs) = true
        · rw [if_pos hp]
          have := ih cs.length (by simp) 9 cs rfl
          simp only [List.length_cons]; omega
        · rw [if_neg hp]
          have := ih cs.length (by simp) 0 cs rfl
          simp only [List.length_cons]; omega

theorem stripMarker_of_marker_free (l : List Char) (h : ¬ selectedMarker <:+: l) :
    stripMarker 0 l = l := by
  induction l with
  | nil => rfl
  | cons c cs ih =>
    have hp : ¬ selectedMarker.isPrefixOf (c :: cs) = true := by
      intro hp
      exact h (List.isPrefixOf_iff_prefix.1 hp).isInfix
    have hcs : ¬ selectedMarker <:+: cs := fun hi =>
      h (List.infix_cons_iff.2 (Or.inr hi))
    simp only [stripMarker, if_neg hp, ih hcs]

theorem stripMarker_length_lt (l : List Char) (h : selectedMarker <:+: l) :
    (stripMarker 0 l).length < l.length := by
  induction l with
  | nil =>
    have := h.length_le
    simp [selectedMarker] at this
  | cons c cs ih =>
    simp only [stripMarker]
    by_cases hp : selectedMarker.isPrefixOf (c :: cs) = true
    · rw [if_pos hp]
      have := stripMarker_length_le 9 cs
      simp only [List.length_cons]; omega
    · rw [if_neg hp]
      have hcs : selectedMarker <:+: cs := by
        rcases List.infix_cons_iff.1 h with h1 | h1
        · exact absurd (List.isPrefixOf_iff_prefix.2 h1) hp
        · exact h1
      have := ih hcs
      simp only [List.length_cons]; omega

theorem trimChars_eq (l : List Char) :
    trimChars l = (l.dropWhile isJsWhitespace).rdropWhile isJsWhitespace := rfl

theorem trimChars_part_of_input (l : List Char) : trimChars l <:+: l := by
  rw [trimChars_eq]
  exact (List.rdropWhile_prefix _ _).isInfix.trans (List.dropWhile_suffix _).isInfix

theorem trimChars_length_le (l : List Char) : (trimChars l).length ≤ l.length :=
  (trimChars_part_of_input l).length_le

theorem trimChars_idem (l : List Char) : trimChars (trimChars l) = trimChars l := by
  have hkey : (trimChars l).dropWhile isJsWhitespace = trimChars l := by
    cases hm : trimChars l with
    | nil => rfl
    | cons a t =>
      have hpre : (a :: t) <+: l.dropWhile isJsWhitespace := by
        rw [← hm, trimChars_eq]; exact List.rdropWhile_prefix _ _
      obtain ⟨rest, hrest⟩ := hpre
      have hhead := List.head?_dropWhile_not isJsWhitespace l
      rw [← hrest] at hhead
      simp only [List.cons_append, List.head?_cons] at hhead
      have ha : isJsWhitespace a = false := by simpa using hhead
      simp [List.dropWhile_cons, ha]
  rw [trimChars_eq (trimChars l), hkey, trimChars_eq l, List.rdropWhile_idempotent]

theorem jsTrim_removeSelected (v : JsText) : jsTrim (removeSelected v) = removeSelected v := by
  cases v with
  | str s => simp only [removeSelected, jsTrim, trimChars_idem]
  | undefined => rfl
  | null => rfl

/-- Where the result of `removeSelected` has no marker, a second pass changes nothing, and
where it has one, a second pass shortens it. -/
theorem removeSelected_idem_iff (v : JsText) :
    ¬ selectedMarker <:+: (removeSelected v).data ↔
      removeSelected (.str (removeSelected v)) = removeSelected v := by
  constructor
  · intro h
    have h1 : removeSelected (.str (removeSelected v)) = jsTrim (removeSelected v) := by
      show jsTrim ⟨stripMarker 0 (removeSelected v).data⟩ = jsTrim (removeSelected v)
      rw [stripMarker_of_marker_free _ h]
    rw [h1, jsTrim_removeSelected]
  · intro h hinf
    have hlen := stripMarker_length_lt _ hinf
    have h2 : (removeSelected (.str (removeSelected v))).data.length
        < (removeSelected v).data.length := by
      show (trimChars (stripMarker 0 (removeSelected v).data)).length
        < (removeSelected v).data.length
      exact Nat.lt_of_le_of_lt (trimChars_length_le _) hlen
    rw [h] at h2
    exact Nat.lt_irrefl _ h2


theorem not_isPrefixOf_of_ne_colon (c : Char) (cs : List Char) (hc : c ≠ ':') :
    ¬ selectedMarker.isPrefixOf (c :: cs) = true := by
  intro h
  have hpre := List.isPrefixOf_iff_prefix.1 h
  obtain ⟨t, ht⟩ := hpre
  simp only [selectedMarker, List.cons_append, List.cons.injEq] at ht
  exact hc ht.1.symm

theorem stripMarker_colon_free_append (u rest : List Char) (hu : ':' ∉ u) :
    stripMarker 0 (u ++ rest) = u ++ stripMarker 0 rest := by
  induction u with
  | nil => rfl
  | cons c cs ih =>
    have hc : c ≠ ':' := fun h => hu (by simp [h])
    have hcs : ':' ∉ cs := fun h => hu (List.mem_cons_of_mem _ h)
    rw [List.cons_append]
    simp only [stripMarker, if_neg (not_isPrefixOf_of_ne_colon c _ hc)]
    rw [ih hcs, List.cons_append]

theorem stripMarker_marker_append (rest : List Char) :
    stripMarker 0 (selectedMarker ++ rest) = stripMarker 0 rest := by
  simp [selectedMarker, stripMarker, List.isPrefixOf]

theorem stripMarker_intercalate (us : List (List Char)) (h : ∀ u ∈ us, ':' ∉ u) :
    stripMarker 0 (selectedMarker.intercalate us) = us.flatten := by
  match us with
  | [] => rfl
  | [u] =>
    have := stripMarker_colon_free_append u [] (h u (by simp))
    simpa [List.intercalate, List.intersperse, stripMarker] using this
  | u :: v :: ws =>
    have ih := stripMarker_intercalate (v :: ws) (fun x hx => h x (List.mem_cons_of_mem _ hx))
    have hu := h u (by simp)
    have hrw : selectedMarker.intercalate (u :: v :: ws) =
        u ++ (selectedMarker ++ selectedMarker.intercalate (v :: ws)) := by
      simp [List.intercalate, List.intersperse]
    rw [hrw, stripMarker_colon_free_append _ _ hu, stripMarker_marker_append, ih]
    simp

theorem not_infix_of_colon_free (l : List Char) (h : ':' ∉ l) : ¬ selectedMarker <:+: l := by
  intro hinf
  obtain ⟨a, b, hab⟩ := hinf
  apply h
  rw [← hab]
  simp [selectedMarker]

theorem deleteMarkerRef_marker_append (l : List Char) :
    deleteMarkerRef (selectedMarker ++ l) = deleteMarkerRef l := by
  rw [← stripMarker_eq_ref, ← stripMarker_eq_ref, stripMarker_marker_append]

theorem deleteMarkerRef_cons_of_not_prefix (c : Char) (cs : List Char)
    (h : ¬ selectedMarker <+: c :: cs) : deleteMarkerRef (c :: cs) = c :: deleteMarkerRef cs := by
  have hp : ¬ selectedMarker.isPrefixOf (c :: cs) = true := fun hp =>
    h (List.isPrefixOf_iff_prefix.1 hp)
  rw [← stripMarker_eq_ref, ← stripMarker_eq_ref]
  simp only [stripMarker, if_neg hp]

/-- C11: `removeSelected` equals its reference definition: the empty string for `null` and
`undefined`, and for a string `s` the trimmed `s'`, where `s'` is `s` with every
left-to-right non-overlapping occurrence of the exact token `":selected:"` deleted (the
reference deletion skips a marker at the head, and otherwise keeps the head character and
goes on); `":SELECTED:"` is left in place. -/
theorem C11_removeSelected_reference :
    (∀ v : JsText, removeSelected v = removeSelectedRef v) ∧
    removeSelected .null = "" ∧ removeSelected .undefined = "" ∧
    (∀ s : String, removeSelected (.str s) = jsTrim ⟨deleteMarkerRef s.data⟩) ∧
    deleteMarkerRef [] = [] ∧
    (∀ l : List Char, deleteMarkerRef (selectedMarker ++ l) = deleteMarkerRef l) ∧
    (∀ (c : Char) (cs : List Char), ¬ selectedMarker <+: c :: cs →
      deleteMarkerRef (c :: cs) = c :: deleteMarkerRef cs) ∧
    removeSelected (.str ":SELECTED:") = ":SELECTED:" ∧
    removeSelected (.str "  HC:selected: :selected:x ") = "HC x" := by
  refine ⟨removeSelected_eq_ref, rfl, rfl, ?_, ?_, deleteMarkerRef_marker_append,
    deleteMarkerRef_cons_of_not_prefix, by decide, by decide⟩
  · intro s
    rw [removeSelected_eq_ref]; rfl
  · rw [← stripMarker_eq_ref]; rfl

/-- Counterexample to C12 as stated: for `":sel:selected:ected:"` the single pass deletes
the inner occurrence and joins its two sides into a new one, so the result is
`":selected:"`, which contains the marker, and a second call changes it to `""`. -/
theorem C12_counterexample :
    removeSelected (.str ":sel:selected:ected:") = ":selected:" ∧
    selectedMarker <:+: (removeSelected (.str ":sel:selected:ected:")).data ∧
    removeSelected (.str (removeSelected (.str ":sel:selected:ected:"))) ≠
      removeSelected (.str ":sel:selected:ected:") := by
  refine ⟨by decide, ⟨[], [], by decide⟩, by decide⟩

/-- C12 (amended): for every string whose single left-to-right pass leaves no occurrence
of the marker, in particular for every string made of colon-free pieces separated by
markers, the result of `removeSelected` contains no occurrence of `":selected:"` and
`removeSelected` is idempotent on it; and for every input the result is free of the
marker exactly when a second call leaves it unchanged. -/
theorem C12_marker_free_after_clean_pass :
    (∀ s : String, ¬ selectedMarker <:+: stripMarker 0 s.data →
      ¬ selectedMarker <:+: (removeSelected (.str s)).data ∧
      removeSelected (.str (removeSelected (.str s))) = removeSelected (.str s)) ∧
    (∀ us : List (List Char), (∀ u ∈ us, ':' ∉ u) →
      removeSelected (.str ⟨selectedMarker.intercalate us⟩) = jsTrim ⟨us.flatten⟩ ∧
      ¬ selectedMarker <:+: (removeSelected (.str ⟨selectedMarker.intercalate us⟩)).data ∧
      removeSelected (.str (removeSelected (.str ⟨selectedMarker.intercalate us⟩))) =
        removeSelected (.str ⟨selectedMarker.intercalate us⟩)) ∧
    (∀ v : JsText, ¬ selectedMarker <:+: (removeSelected v).data ↔
      removeSelected (.str (removeSelected v)) = removeSelected v) ∧
    removeSelected (.str (removeSelected (.str " a:selected:b:selected: "))) =
      removeSelected (.str " a:selected:b:selected: ") := by
  have hclean : ∀ s : String, ¬ selectedMarker <:+: stripMarker 0 s.data →
      ¬ selectedMarker <:+: (removeSelected (.str s)).data ∧
      removeSelected (.str (removeSelected (.str s))) = removeSelected (.str s) := by
    intro s h
    have hfree : ¬ selectedMarker <:+: (removeSelected (.str s)).data := fun hinf =>
      h (hinf.trans (trimChars_part_of_input _))
    exact ⟨hfree, (removeSelected_idem_iff _).1 hfree⟩
  refine ⟨hclean, ?_, removeSelected_idem_iff, by decide⟩
  intro us hus
  have hstrip := stripMarker_intercalate us hus
  have hjoin : ':' ∉ us.flatten := by
    simp only [List.mem_flatten, not_exists, not_and]
    exact fun u hu => hus u hu
  have h1 := hclean ⟨selectedMarker.intercalate us⟩
    (by rw [hstrip]; exact not_infix_of_colon_free _ hjoin)
  refine ⟨?_, h1.1, h1.2⟩
  show jsTrim ⟨stripMarker 0 (selectedMarker.intercalate us)⟩ = _
  rw [hstrip]


/-! ## Claims on `extractFields` and `isOldVersion` -/

theorem extractField_eq_ref (fields : FieldBag) (key : String) :
    extractField fields key = extractFieldRef fields key := by
  unfold extractField extractFieldRef fieldValue orNA
  cases fields.lookup key with
  | none => rfl
  | some o =>
    cases o with
    | none => rfl
    | some f =>
      rcases f with ⟨v⟩
      cases v with
      | undefined => rfl
      | null => rfl
      | str t => by_cases h : removeSelected (.str t) = "" <;> simp [h]

theorem extractField_absent (fields : FieldBag) (key : String)
    (h : fields.lookup key = none) : extractField fields key = "N/A" := by
  rw [extractField_eq_ref, extractFieldRef, h]

/-- C13: `extractFields` equals its reference definition: each of the seven outputs is
computed from its source key and is the normalized value when that key is present with a
string value whose normalization is non-empty, and `"N/A"` otherwise. Witness: the bag
`{Location: {value: " Fiji "}}` gives `location = "Fiji"`, the six other fields `"N/A"`,
and `isOldVersion` of the result is true. -/
theorem C13_extractFields_reference :
    (∀ fields : FieldBag, extractFields (.obj fields) = .ok
      [("location", extractFieldRef fields "Location"),
       ("islandCountry", extractFieldRef fields "Island/Country"),
       ("date", extractFieldRef fields "Date"),
       ("teamLeader", extractFieldRef fields "Team Leader"),
       ("timeOfDive", extractFieldRef fields "Time of Dive"),
       ("divedDepth", extractFieldRef fields "Dived Depth"),
       ("nameOfDiver", extractFieldRef fields "Name Of Diver")]) ∧
    (∀ (fields : FieldBag) (key v : String), fields.lookup key = some (some ⟨.str v⟩) →
      removeSelected (.str v) ≠ "" → extractField fields key = removeSelected (.str v)) ∧
    (∀ (fields : FieldBag) (key : String),
      (fields.lookup key = none ∨ fields.lookup key = some none ∨
       fields.lookup key = some (some ⟨.undefined⟩) ∨ fields.lookup key = some (some ⟨.null⟩) ∨
       ∃ v, fields.lookup key = some (some ⟨.str v⟩) ∧ removeSelected (.str v) = "") →
      extractField fields key = "N/A") ∧
    extractFields (.obj [("Location", some ⟨.str " Fiji "⟩)]) = .ok
      [("location", "Fiji"), ("islandCountry", "N/A"), ("date", "N/A"), ("teamLeader", "N/A"),
       ("timeOfDive", "N/A"), ("divedDepth", "N/A"), ("nameOfDiver", "N/A")] ∧
    isOldVersion
      [("location", "Fiji"), ("islandCountry", "N/A"), ("date", "N/A"), ("teamLeader", "N/A"),
       ("timeOfDive", "N/A"), ("divedDepth", "N/A"), ("nameOfDiver", "N/A")] = true := by
  refine ⟨?_, ?_, ?_, rfl, by decide⟩
  · intro fields
    simp only [extractFields, extractFieldsObj, extractField_eq_ref]
  · intro fields key v hk hne
    rw [extractField_eq_ref, extractFieldRef, hk]
    simp [hne]
  · intro fields key h
    rw [extractField_eq_ref, extractFieldRef]
    rcases h with h | h | h | h | ⟨v, h, hv⟩ <;> rw [h]
    simp [hv]

/-- C14: for a field bag containing none of the seven source keys, `extractFields`
returns all seven fields equal to `"N/A"`, and `isOldVersion` of that result is false. -/
theorem C14_no_source_key_all_NA (fields : FieldBag)
    (h : ∀ key ∈ ["Location", "Island/Country", "Date", "Team Leader", "Time of Dive",
      "Dived Depth", "Name Of Diver"], fields.lookup key = none) :
    extractFields (.obj fields) = .ok
      [("location", "N/A"), ("islandCountry", "N/A"), ("date", "N/A"), ("teamLeader", "N/A"),
       ("timeOfDive", "N/A"), ("divedDepth", "N/A"), ("nameOfDiver", "N/A")] ∧
    isOldVersion
      [("location", "N/A"), ("islandCountry", "N/A"), ("date", "N/A"), ("teamLeader", "N/A"),
       ("timeOfDive", "N/A"), ("divedDepth", "N/A"), ("nameOfDiver", "N/A")] = false := by
  refine ⟨?_, by decide⟩
  simp only [extractFields, extractFieldsObj]
  rw [extractField_absent fields "Location" (h _ (by simp)),
    extractField_absent fields "Island/Country" (h _ (by simp)),
    extractField_absent fields "Date" (h _ (by simp)),
    extractField_absent fields "Team Leader" (h _ (by simp)),
    extractField_absent fields "Time of Dive" (h _ (by simp)),
    extractField_absent fields "Dived Depth" (h _ (by simp)),
    extractField_absent fields "Name Of Diver" (h _ (by simp))]

/-- Witness of C14: the empty bag `{}`. -/
theorem C14_no_source_key_all_NA_witness :
    extractFields (.obj []) = .ok
      [("location", "N/A"), ("islandCountry", "N/A"), ("date", "N/A"), ("teamLeader", "N/A"),
       ("timeOfDive", "N/A"), ("divedDepth", "N/A"), ("nameOfDiver", "N/A")] ∧
    isOldVersion
      [("location", "N/A"), ("islandCountry", "N/A"), ("date", "N/A"), ("teamLeader", "N/A"),
       ("timeOfDive", "N/A"), ("divedDepth", "N/A"), ("nameOfDiver", "N/A")] = false :=
  C14_no_source_key_all_NA [] (fun _ _ => rfl)

/-- Counterexample to C15 as stated: on a `null` bag the default parameter does not apply,
`fields.Location` is read on `null` and the call throws; it does not return the result of
the empty mapping. -/
theorem C15_counterexample :
    extractFields .null = .error .typeError ∧ extractFields .null ≠ extractFields (.obj []) := by
  refine ⟨rfl, ?_⟩
  intro h
  cases h

/-- C15 (amended): when the field bag is `undefined` (absent argument), `extractFields`
does not throw and returns the result of the empty mapping, all seven fields `"N/A"`. -/
theorem C15_undefined_bag_is_empty_bag :
    extractFields .undefined = extractFields (.obj []) ∧
    extractFields .undefined = .ok
      [("location", "N/A"), ("islandCountry", "N/A"), ("date", "N/A"), ("teamLeader", "N/A"),
       ("timeOfDive", "N/A"), ("divedDepth", "N/A"), ("nameOfDiver", "N/A")] :=
  ⟨rfl, rfl⟩

/-- C16: `isOldVersion` is true exactly when at least one value of the record differs from
`"N/A"`, and false exactly when all values are `"N/A"`; on the record extracted from a bag
it is true exactly when one of the seven extracted values differs from `"N/A"`. -/
theorem C16_isOldVersion_iff :
    (∀ fields : ExtractedFields, isOldVersion fields = true ↔ ∃ p ∈ fields, p.2 ≠ "N/A") ∧
    (∀ fields : ExtractedFields, isOldVersion fields = false ↔ ∀ p ∈ fields, p.2 = "N/A") ∧
    (∀ bag : FieldBag, isOldVersion (extractFieldsObj bag) = true ↔
      (extractField bag "Location" ≠ "N/A" ∨ extractField bag "Island/Country" ≠ "N/A" ∨
       extractField bag "Date" ≠ "N/A" ∨ extractField bag "Team Leader" ≠ "N/A" ∨
       extractField bag "Time of Dive" ≠ "N/A" ∨ extractField bag "Dived Depth" ≠ "N/A" ∨
       extractField bag "Name Of Diver" ≠ "N/A")) ∧
    (∀ bag : FieldBag, isOldVersion (extractFieldsObj bag) = false ↔
      (extractField bag "Location" = "N/A" ∧ extractField bag "Island/Country" = "N/A" ∧
       extractField bag "Date" = "N/A" ∧ extractField bag "Team Leader" = "N/A" ∧
       extractField bag "Time of Dive" = "N/A" ∧ extractField bag "Dived Depth" = "N/A" ∧
       extractField bag "Name Of Diver" = "N/A")) := by
  refine ⟨?_, ?_, ?_, ?_⟩
  · intro fields
    simp [isOldVersion]
  · intro fields
    simp [isOldVersion]
  · intro bag
    simp [isOldVersion, extractFieldsObj]
  · intro bag
    simp [isOldVersion, extractFieldsObj]


/-! ## Claims on `calculateStats` -/

theorem allEntries_length (sd : SegmentData) :
    (allEntries sd).length = (sd.map fun p => p.2.data.length).sum := by
  induction sd with
  | nil => rfl
  | cons p ps ih =>
    simp only [allEntries, List.flatMap_cons, List.length_append, List.map_cons,
      List.sum_cons] at ih ⊢
    rw [ih]

theorem allEntries_countP (q : SegmentEntry → Bool) (sd : SegmentData) :
    (allEntries sd).countP q = (sd.map fun p => p.2.data.countP q).sum := by
  induction sd with
  | nil => rfl
  | cons p ps ih =>
    simp only [allEntries, List.flatMap_cons, List.countP_append, List.map_cons,
      List.sum_cons] at ih ⊢
    rw [ih]

/-- A `segmentData` with the four fixed keys is a list of four buckets under the keys
`1, 2, 3, 4`. -/
theorem shape_of_rangesOf {sd : SegmentData}
    (h : rangesOf sd =
      [(1, "0 - 19.5 m"), (2, "25 - 44.5 m"), (3, "50 - 69.5 m"), (4, "75 - 94.5 m")]) :
    ∃ s1 s2 s3 s4 : Segment, sd = [(1, s1), (2, s2), (3, s3), (4, s4)] := by
  rcases sd with _ | ⟨⟨k1, s1⟩, _ | ⟨⟨k2, s2⟩, _ | ⟨⟨k3, s3⟩, _ | ⟨⟨k4, s4⟩, _ | ⟨p5, rest⟩⟩⟩⟩⟩ <;>
    simp [rangesOf] at h
  obtain ⟨⟨h1, _⟩, ⟨h2, _⟩, ⟨h3, _⟩, h4, _⟩ := h
  subst h1 h2 h3 h4
  exact ⟨s1, s2, s3, s4, rfl⟩

/-- C17: `calculateStats` equals its reference definition: `totalCells` is the number of
entries over all segments, `validCells` the number of entries with `isValid`, `invalidCells`
the number with `!isValid && !filledFromAbove`, `filledCells` the number with
`filledFromAbove`; and on a `segmentData` returned by `processSegmentData`, `totalCells` is
the sum of the entry counts of the four segments. -/
theorem C17_calculateStats_reference :
    (∀ sd : SegmentData, calculateStats sd = calculateStatsRef sd) ∧
    (∀ sd : SegmentData, calculateStats sd =
      { totalCells := (allEntries sd).length,
        validCells := (allEntries sd).countP fun e => e.isValid,
        invalidCells := (allEntries sd).countP fun e => !e.isValid && !e.filledFromAbove,
        filledCells := (allEntries sd).countP fun e => e.filledFromAbove }) ∧
    (∀ (table : Option Table) (sd : SegmentData), processSegmentData table = .ok sd →
      (calculateStats sd).totalCells =
        (dataOf sd 1).length + (dataOf sd 2).length + (dataOf sd 3).length +
          (dataOf sd 4).length) ∧
    calculateStats (mkSegmentData
      [⟨"5", "HC", true, false, false⟩, ⟨"10", "HC", true, true, true⟩]
      [⟨"25", "XX", false, false, false⟩] [] [⟨"75", "", false, true, false⟩]) =
      ⟨4, 2, 2, 1⟩ := by
  refine ⟨?_, ?_, ?_, by decide⟩
  · intro sd
    rw [calculateStats_eq, calculateStatsRef, allEntries_length,
      allEntries_countP, allEntries_countP, allEntries_countP]
    rfl
  · intro sd
    rw [calculateStats_eq]
    rfl
  · intro table sd h
    obtain ⟨s1, s2, s3, s4, rfl⟩ := shape_of_rangesOf (processSegmentData_inv h).1
    rw [calculateStats_eq]
    simp [allEntries, dataOf, List.lookup, Nat.add_assoc]


/-! ## Claims on `generateDetailedReport` -/

theorem reportRow_segment (seg : Int) (e : SegmentEntry) : (reportRow seg e).segment = seg := rfl

theorem mem_reportData {sd : SegmentData} {fields : List (String × String)} {row : ReportRow}
    (h : row ∈ (generateDetailedReport sd fields).reportData) :
    ∃ p ∈ sd, ∃ e ∈ p.2.data, hasIssue e = true ∧ row = reportRow p.1 e := by
  rw [reportData_eq, List.mem_flatMap] at h
  obtain ⟨p, hp, hrow⟩ := h
  rw [List.mem_map] at hrow
  obtain ⟨e, he, rfl⟩ := hrow
  rw [List.mem_filter] at he
  exact ⟨p, hp, e, he.1, he.2, rfl⟩

theorem pairwise_report_segments (sd : SegmentData)
    (h : (sd.map fun p => p.1).Pairwise fun a b => a < b) :
    (sd.flatMap fun p => (p.2.data.filter hasIssue).map (reportRow p.1)).Pairwise
      fun r1 r2 => r1.segment ≤ r2.segment := by
  induction sd with
  | nil => exact List.Pairwise.nil
  | cons p ps ih =>
    rw [List.map_cons, List.pairwise_cons] at h
    rw [List.flatMap_cons, List.pairwise_append]
    refine ⟨?_, ih h.2, ?_⟩
    · rw [List.pairwise_map]
      exact List.pairwise_of_forall (fun _ _ => Int.le_refl _)
    · intro r1 hr1 r2 hr2
      rw [List.mem_map] at hr1
      obtain ⟨e1, _, rfl⟩ := hr1
      rw [List.mem_flatMap] at hr2
      obtain ⟨q, hq, hr2⟩ := hr2
      rw [List.mem_map] at hr2
      obtain ⟨e2, _, rfl⟩ := hr2
      rw [reportRow_segment, reportRow_segment]
      exact Int.le_of_lt (h.1 q.1 (List.mem_map.2 ⟨q, hq, rfl⟩))

/-- C18: the segment report holds, segment after segment in the enumeration order of
`segmentData` and within a segment in the order of its data sequence, one row for each
entry with `!isValid || filledFromAbove` and no other row; so the number of rows is the
number of such entries, with ascending segment keys the segment numbers of the rows are
ascending, and on a `segmentData` returned by `processSegmentData` the report is the rows
of segment 1, then 2, then 3, then 4. -/
theorem C18_segment_report_rows :
    (∀ (sd : SegmentData) (fields : List (String × String)),
      (generateDetailedReport sd fields).reportData =
        sd.flatMap fun p =>
          (p.2.data.filter fun e => !e.isValid || e.filledFromAbove).map (reportRow p.1)) ∧
    (∀ (sd : SegmentData) (fields : List (String × String)),
      (generateDetailedReport sd fields).reportData.length =
        (allEntries sd).countP fun e => !e.isValid || e.filledFromAbove) ∧
    (∀ (sd : SegmentData) (fields : List (String × String)),
      ((sd.map fun p => p.1).Pairwise fun a b => a < b) →
      (generateDetailedReport sd fields).reportData.Pairwise
        fun r1 r2 => r1.segment ≤ r2.segment) ∧
    (∀ (table : Option Table) (sd : SegmentData) (fields : List (String × String)),
      processSegmentData table = .ok sd →
      (generateDetailedReport sd fields).reportData =
        ((dataOf sd 1).filter fun e => !e.isValid || e.filledFromAbove).map (reportRow 1) ++
        ((dataOf sd 2).filter fun e => !e.isValid || e.filledFromAbove).map (reportRow 2) ++
        ((dataOf sd 3).filter fun e => !e.isValid || e.filledFromAbove).map (reportRow 3) ++
        ((dataOf sd 4).filter fun e => !e.isValid || e.filledFromAbove).map (reportRow 4)) ∧
    (generateDetailedReport (mkSegmentData
      [⟨"5", "HC", true, false, false⟩, ⟨"10", "HC", true, true, true⟩]
      [⟨"25", "XX", false, false, false⟩] [] []) []).reportData =
      [⟨1, "10", "", "HC", "Yes", "Yes", "Filled from above"⟩,
       ⟨2, "25", "XX", "XX", "No", "No", "Invalid substrate code"⟩] := by
  refine ⟨?_, ?_, ?_, ?_, by decide⟩
  · intro sd fields
    exact reportData_eq sd fields
  · intro sd fields
    rw [reportData_eq, allEntries_countP]
    induction sd with
    | nil => rfl
    | cons p ps ih =>
      simp only [List.flatMap_cons, List.length_append, List.length_map, List.map_cons,
        List.sum_cons, ih, List.countP_eq_length_filter]
      rfl
  · intro sd fields h
    rw [reportData_eq]
    exact pairwise_report_segments sd h
  · intro table sd fields h
    obtain ⟨s1, s2, s3, s4, rfl⟩ := shape_of_rangesOf (processSegmentData_inv h).1
    rw [reportData_eq]
    simp [dataOf, List.lookup]
    rfl

/-- C19: every row of the segment report is the row of an entry with
`!isValid || filledFromAbove`; its issue is `"Invalid substrate code"` exactly when the
entry has `isValid = false`, and `"Filled from above"` exactly when the entry has
`isValid = true` and `filledFromAbove = true`; its `isValid` and `filledFromAbove` columns
are the `"Yes"`/`"No"` renderings of the flags; and its issue is never empty. -/
theorem C19_issue_column (sd : SegmentData) (fields : List (String × String))
    (row : ReportRow) (h : row ∈ (generateDetailedReport sd fields).reportData) :
    ∃ p ∈ sd, ∃ e ∈ p.2.data, (!e.isValid || e.filledFromAbove) = true ∧
      row = reportRow p.1 e ∧
      (row.issue = "Invalid substrate code" ↔ e.isValid = false) ∧
      (row.issue = "Filled from above" ↔ e.isValid = true ∧ e.filledFromAbove = true) ∧
      row.isValid = (if e.isValid then "Yes" else "No") ∧
      row.filledFromAbove = (if e.filledFromAbove then "Yes" else "No") ∧
      row.issue ≠ "" := by
  obtain ⟨p, hp, e, he, hissue, rfl⟩ := mem_reportData h
  refine ⟨p, hp, e, he, hissue, rfl, ?_⟩
  rcases e with ⟨d, c, v, b, f⟩
  cases v <;> cases f <;> simp [reportRow, hasIssue] at hissue ⊢

/-- Witness of C19: the row of a filled entry of segment 1. -/
theorem C19_issue_column_witness :
    ∃ p ∈ mkSegmentData [⟨"5", "HC", true, false, false⟩, ⟨"10", "HC", true, true, true⟩]
        [⟨"25", "XX", false, false, false⟩] [] [],
      ∃ e ∈ p.2.data, (!e.isValid || e.filledFromAbove) = true ∧
      (⟨1, "10", "", "HC", "Yes", "Yes", "Filled from above"⟩ : ReportRow) = reportRow p.1 e ∧
      ((⟨1, "10", "", "HC", "Yes", "Yes", "Filled from above"⟩ : ReportRow).issue =
        "Invalid substrate code" ↔ e.isValid = false) ∧
      ((⟨1, "10", "", "HC", "Yes", "Yes", "Filled from above"⟩ : ReportRow).issue =
        "Filled from above" ↔ e.isValid = true ∧ e.filledFromAbove = true) ∧
      (⟨1, "10", "", "HC", "Yes", "Yes", "Filled from above"⟩ : ReportRow).isValid =
        (if e.isValid then "Yes" else "No") ∧
      (⟨1, "10", "", "HC", "Yes", "Yes", "Filled from above"⟩ : ReportRow).filledFromAbove =
        (if e.filledFromAbove then "Yes" else "No") ∧
      (⟨1, "10", "", "HC", "Yes", "Yes", "Filled from above"⟩ : ReportRow).issue ≠ "" :=
  C19_issue_column
    (mkSegmentData [⟨"5", "HC", true, false, false⟩, ⟨"10", "HC", true, true, true⟩]
      [⟨"25", "XX", false, false, false⟩] [] []) []
    ⟨1, "10", "", "HC", "Yes", "Yes", "Filled from above"⟩ (by decide)


/-! ## The strings held by reconciled entries -/

theorem fillEntry_strings (P : String → Prop) (depth : String) (last : Option String)
    (t : String) (hd : P depth) (ht : P t) (hlast : ∀ v, last = some v → P v) :
    P (fillEntry depth last t).content ∧ P (fillEntry depth last t).depth := by
  cases last with
  | none => exact ⟨ht, hd⟩
  | some v =>
    by_cases h : t = ""
    · simp only [fillEntry, h, if_true]; exact ⟨hlast v rfl, hd⟩
    · simp only [fillEntry, h, if_false]; exact ⟨ht, hd⟩

theorem nextValid_strings (P : String → Prop) {last : Option String} {t : String}
    (ht : P t) (hlast : ∀ v, last = some v → P v) : ∀ v, nextValid last t = some v → P v := by
  intro v hv
  unfold nextValid at hv
  by_cases h : t ≠ "" ∧ isValidCode t = true
  · rw [if_pos h] at hv
    simp only [Option.some.injEq] at hv
    subst hv; exact ht
  · rw [if_neg h] at hv; exact hlast v hv

/-- Every content and depth held by the loop state is a result of `removeSelected`: a
property of all such results holds of them. -/
theorem processCell_strings (P : String → Prop) (hP : ∀ v, P (removeSelected v))
    {cells : List CellElem} {st st2 : LoopState} {e : CellElem}
    (h : processCell cells st e = .ok st2)
    (hE : ∀ x ∈ allEntries st.segmentData, P x.content ∧ P x.depth)
    (hL : ∀ s v, (st.lastValidContent s).truthyVal = some v → P v) :
    (∀ x ∈ allEntries st2.segmentData, P x.content ∧ P x.depth) ∧
    (∀ s v, (st2.lastValidContent s).truthyVal = some v → P v) := by
  rcases processCell_ok h with ⟨hsd, hl⟩ | ⟨c, r, col, found, _, _, _, _, _, _, hsd, hl⟩
  · refine ⟨by rw [hsd]; exact hE, ?_⟩
    intro s v hv
    rw [hl s] at hv
    exact hL s v hv
  · refine ⟨?_, ?_⟩
    · intro x hx
      rw [hsd] at hx
      rcases mem_allEntries_pushEntry hx with hx | hx
      · exact hE x hx
      · subst hx
        exact fillEntry_strings P _ _ _ (hP _) (hP _) (fun v hv => hL _ v hv)
    · intro s v hv
      rw [hl s] at hv
      by_cases hs : s = (col + 1) / 2
      · rw [if_pos hs] at hv
        exact nextValid_strings P (hP _) (fun v hv => hL _ v hv) v hv
      · rw [if_neg hs] at hv
        exact hL s v hv

theorem forEachCell_strings (P : String → Prop) (hP : ∀ v, P (removeSelected v))
    {cells : List CellElem} (l : List CellElem) {st st2 : LoopState}
    (h : forEachCell cells l st = .ok st2)
    (hE : ∀ x ∈ allEntries st.segmentData, P x.content ∧ P x.depth)
    (hL : ∀ s v, (st.lastValidContent s).truthyVal = some v → P v) :
    ∀ x ∈ allEntries st2.segmentData, P x.content ∧ P x.depth := by
  induction l generalizing st with
  | nil =>
    simp only [forEachCell, Except.ok.injEq] at h
    subst h
    exact hE
  | cons e es ih =>
    simp only [forEachCell] at h
    cases h1 : processCell cells st e with
    | error err => rw [h1] at h; cases h
    | ok st1 =>
      rw [h1] at h
      obtain ⟨hE1, hL1⟩ := processCell_strings P hP h1 hE hL
      exact ih h hE1 hL1

/-- Whatever the table, the content and the depth of every returned entry are results of
`removeSelected`. -/
theorem processSegmentData_strings (P : String → Prop) (hP : ∀ v, P (removeSelected v))
    {table : Option Table} {sd : SegmentData} (h : processSegmentData table = .ok sd) :
    ∀ x ∈ allEntries sd, P x.content ∧ P x.depth := by
  have hinit : ∀ x ∈ allEntries initialSegmentData, P x.content ∧ P x.depth := by
    intro x hx; simp [allEntries, initialSegmentData, mkSegmentData] at hx
  cases table with
  | none =>
    simp only [processSegmentData, Except.ok.injEq] at h
    subst h; exact hinit
  | some t =>
    rcases t with ⟨_ | cells⟩
    · simp only [processSegmentData, Except.ok.injEq] at h
      subst h; exact hinit
    · simp only [processSegmentData] at h
      cases h1 : forEachCell cells cells ⟨initialSegmentData, fun _ => .undefined⟩ with
      | error err => rw [h1] at h; cases h
      | ok st2 =>
        rw [h1] at h
        simp only [Except.ok.injEq] at h
        subst h
        exact forEachCell_strings P hP cells h1 hinit
          (fun s v hv => by simp [JsText.truthyVal] at hv)

theorem removeSelected_of_trimmed_clean (x : String) (htrim : jsTrim x = x)
    (hfree : ¬ selectedMarker <:+: x.data) : removeSelected (.str x) = x := by
  show jsTrim ⟨stripMarker 0 x.data⟩ = x
  rw [stripMarker_of_marker_free _ hfree]
  exact htrim

theorem mem_allEntries_of_mem {sd : SegmentData} {p : Int × Segment} {e : SegmentEntry}
    (hp : p ∈ sd) (he : e ∈ p.2.data) : e ∈ allEntries sd := by
  simp only [allEntries, List.mem_flatMap]
  exact ⟨p, hp, he⟩

/-- Counterexample to C20 as stated: the code cell `":sel:selected:ected:"` is emitted with
content `":selected:"`, and the row reported for that entry has the processed and original
content `""`, not the entry's content. -/
theorem C20_counterexample :
    processSegmentData (some (Table.ofRaw [⟨1, 1, .str ":sel:selected:ected:"⟩])) = .ok
      [(1, ⟨"0 - 19.5 m", [⟨"", ":selected:", false, false, false⟩]⟩),
       (2, ⟨"25 - 44.5 m", []⟩), (3, ⟨"50 - 69.5 m", []⟩), (4, ⟨"75 - 94.5 m", []⟩)] ∧
    (generateDetailedReport
      [(1, ⟨"0 - 19.5 m", [⟨"", ":selected:", false, false, false⟩]⟩),
       (2, ⟨"25 - 44.5 m", []⟩), (3, ⟨"50 - 69.5 m", []⟩), (4, ⟨"75 - 94.5 m", []⟩)]
      []).reportData = [⟨1, "", "", "", "No", "No", "Invalid substrate code"⟩] ∧
    (reportRow 1 ⟨"", ":selected:", false, false, false⟩).processedContent ≠
      (⟨"", ":selected:", false, false, false⟩ : SegmentEntry).content ∧
    (reportRow 1 ⟨"", ":selected:", false, false, false⟩).originalContent ≠
      (⟨"", ":selected:", false, false, false⟩ : SegmentEntry).content := by
  refine ⟨rfl, by decide, by decide, by decide⟩

/-- C20 (amended): for every table, every row that `generateDetailedReport` emits for an
entry of `processSegmentData(table)` has as processed content the normalization
`removeSelected` of the entry's content, as original content the empty string when the
entry is blank and that normalization otherwise, and as depth the normalization of the
entry's depth; these are the entry's content and depth themselves whenever they contain
no occurrence of `":selected:"`. -/
theorem C20_content_columns (table : Option Table) (sd : SegmentData)
    (fields : List (String × String)) (row : ReportRow)
    (hsd : processSegmentData table = .ok sd)
    (hrow : row ∈ (generateDetailedReport sd fields).reportData) :
    ∃ p ∈ sd, ∃ e ∈ p.2.data, row = reportRow p.1 e ∧
      row.processedContent = removeSelected (.str e.content) ∧
      row.originalContent = (if e.isBlank then "" else removeSelected (.str e.content)) ∧
      row.depth = removeSelected (.str e.depth) ∧
      (¬ selectedMarker <:+: e.content.data →
        row.processedContent = e.content ∧
        row.originalContent = (if e.isBlank then "" else e.content)) ∧
      (¬ selectedMarker <:+: e.depth.data → row.depth = e.depth) := by
  obtain ⟨p, hp, e, he, _, rfl⟩ := mem_reportData hrow
  have htrim := processSegmentData_strings (fun x => jsTrim x = x) jsTrim_removeSelected hsd e
    (mem_allEntries_of_mem hp he)
  refine ⟨p, hp, e, he, rfl, rfl, rfl, rfl, ?_, ?_⟩
  · intro hfree
    have hc := removeSelected_of_trimmed_clean e.content htrim.1 hfree
    simp only [reportRow, hc]
    exact ⟨trivial, trivial⟩
  · intro hfree
    exact removeSelected_of_trimmed_clean e.depth htrim.2 hfree

/-- Witness of C20: the rows reported for a wrong code with depth `"10"`. -/
theorem C20_content_columns_witness :
    ∃ p ∈ ([(1, ⟨"0 - 19.5 m", [⟨"10", "XX", false, false, false⟩]⟩),
        (2, ⟨"25 - 44.5 m", []⟩), (3, ⟨"50 - 69.5 m", []⟩), (4, ⟨"75 - 94.5 m", []⟩)] :
        SegmentData),
      ∃ e ∈ p.2.data,
      (⟨1, "10", "XX", "XX", "No", "No", "Invalid substrate code"⟩ : ReportRow) =
        reportRow p.1 e ∧
      (⟨1, "10", "XX", "XX", "No", "No", "Invalid substrate code"⟩ : ReportRow).processedContent =
        removeSelected (.str e.content) ∧
      (⟨1, "10", "XX", "XX", "No", "No", "Invalid substrate code"⟩ : ReportRow).originalContent =
        (if e.isBlank then "" else removeSelected (.str e.content)) ∧
      (⟨1, "10", "XX", "XX", "No", "No", "Invalid substrate code"⟩ : ReportRow).depth =
        removeSelected (.str e.depth) ∧
      (¬ selectedMarker <:+: e.content.data →
        (⟨1, "10", "XX", "XX", "No", "No", "Invalid substrate code"⟩ :
          ReportRow).processedContent = e.content ∧
        (⟨1, "10", "XX", "XX", "No", "No", "Invalid substrate code"⟩ :
          ReportRow).originalContent = (if e.isBlank then "" else e.content)) ∧
      (¬ selectedMarker <:+: e.depth.data →
        (⟨1, "10", "XX", "XX", "No", "No", "Invalid substrate code"⟩ : ReportRow).depth =
          e.depth) :=
  C20_content_columns (some (Table.ofRaw [⟨1, 0, .str "10"⟩, ⟨1, 1, .str "XX"⟩]))
    [(1, ⟨"0 - 19.5 m", [⟨"10", "XX", false, false, false⟩]⟩),
     (2, ⟨"25 - 44.5 m", []⟩), (3, ⟨"50 - 69.5 m", []⟩), (4, ⟨"75 - 94.5 m", []⟩)]
    [] ⟨1, "10", "XX", "XX", "No", "No", "Invalid substrate code"⟩ rfl (by decide)


/-! ## The field report and the all-clear report -/

/-- C21: for every record, the field report has one row per field, in the record's key
order, each with `field` the key, `value` the normalized (`removeSelected`) field value,
and `issue` equal to `"Missing or unrecognized"` exactly when the field's value is `"N/A"`
and empty otherwise; on an extracted record the rows are those of `location`,
`islandCountry`, `date`, `teamLeader`, `timeOfDive`, `divedDepth`, `nameOfDiver`. -/
theorem C21_field_report :
    (∀ (sd : SegmentData) (fields : ExtractedFields),
      (generateDetailedReport sd fields).fieldReport.length = fields.length ∧
      (generateDetailedReport sd fields).fieldReport.map (fun r => r.field) =
        fields.map (fun p => p.1) ∧
      List.Forall₂
        (fun p r => r.field = p.1 ∧ r.value = removeSelected (.str p.2) ∧
          (r.issue = "Missing or unrecognized" ↔ p.2 = "N/A") ∧
          (p.2 ≠ "N/A" → r.issue = ""))
        fields (generateDetailedReport sd fields).fieldReport) ∧
    (∀ (sd : SegmentData) (bag : FieldBag),
      (generateDetailedReport sd (extractFieldsObj bag)).fieldReport.map (fun r => r.field) =
        ["location", "islandCountry", "date", "teamLeader", "timeOfDive", "divedDepth",
         "nameOfDiver"]) ∧
    (generateDetailedReport [] [("location", "Fiji"), ("islandCountry", "N/A"),
        ("date", " :selected: 2024 "), ("teamLeader", "N/A"), ("timeOfDive", "N/A"),
        ("divedDepth", "N/A"), ("nameOfDiver", "N/A")]).fieldReport =
      [⟨"location", "Fiji", ""⟩, ⟨"islandCountry", "N/A", "Missing or unrecognized"⟩,
       ⟨"date", "2024", ""⟩, ⟨"teamLeader", "N/A", "Missing or unrecognized"⟩,
       ⟨"timeOfDive", "N/A", "Missing or unrecognized"⟩,
       ⟨"divedDepth", "N/A", "Missing or unrecognized"⟩,
       ⟨"nameOfDiver", "N/A", "Missing or unrecognized"⟩] := by
  refine ⟨?_, ?_, by decide⟩
  · intro sd fields
    refine ⟨by simp [generateDetailedReport], by simp [generateDetailedReport], ?_⟩
    simp only [generateDetailedReport]
    induction fields with
    | nil => exact List.Forall₂.nil
    | cons p ps ih =>
      refine List.Forall₂.cons ⟨rfl, rfl, ?_, ?_⟩ ih
      · by_cases h : p.2 = "N/A" <;> simp [h]
      · intro h; simp [h]
  · intro sd bag
    simp [generateDetailedReport, extractFieldsObj]

/-- Counterexample to C22 as stated: with no entry at all and seven field values none of
which is `"N/A"`, the segment report is empty but the field report has seven rows. -/
theorem C22_counterexample :
    (∀ e ∈ allEntries initialSegmentData, ¬ (!e.isValid || e.filledFromAbove) = true) ∧
    (∀ p ∈ ([("location", "Fiji"), ("islandCountry", "Fiji"), ("date", "2024"),
        ("teamLeader", "A"), ("timeOfDive", "9"), ("divedDepth", "10"),
        ("nameOfDiver", "B")] : ExtractedFields), p.2 ≠ "N/A") ∧
    (generateDetailedReport initialSegmentData
      [("location", "Fiji"), ("islandCountry", "Fiji"), ("date", "2024"), ("teamLeader", "A"),
       ("timeOfDive", "9"), ("divedDepth", "10"), ("nameOfDiver", "B")]).reportData = [] ∧
    (generateDetailedReport initialSegmentData
      [("location", "Fiji"), ("islandCountry", "Fiji"), ("date", "2024"), ("teamLeader", "A"),
       ("timeOfDive", "9"), ("divedDepth", "10"), ("nameOfDiver", "B")]).fieldReport =
      [⟨"location", "Fiji", ""⟩, ⟨"islandCountry", "Fiji", ""⟩, ⟨"date", "2024", ""⟩,
       ⟨"teamLeader", "A", ""⟩, ⟨"timeOfDive", "9", ""⟩, ⟨"divedDepth", "10", ""⟩,
       ⟨"nameOfDiver", "B", ""⟩] ∧
    (generateDetailedReport initialSegmentData
      [("location", "Fiji"), ("islandCountry", "Fiji"), ("date", "2024"), ("teamLeader", "A"),
       ("timeOfDive", "9"), ("divedDepth", "10"), ("nameOfDiver", "B")]).fieldReport ≠ [] := by
  refine ⟨?_, by decide, by decide, by decide, by decide⟩
  intro e he
  simp [allEntries, initialSegmentData, mkSegmentData] at he

/-- C22 (amended): for every `segmentData` in which no entry is invalid or filled from
above and every record in which no value is `"N/A"`, the segment report is empty, and the
field report has one row per field, each with an empty issue. -/
theorem C22_all_clear_report (sd : SegmentData) (fields : ExtractedFields)
    (hsd : ∀ e ∈ allEntries sd, e.isValid = true ∧ e.filledFromAbove = false)
    (hfields : ∀ p ∈ fields, p.2 ≠ "N/A") :
    (generateDetailedReport sd fields).reportData = [] ∧
    (generateDetailedReport sd fields).fieldReport.length = fields.length ∧
    ∀ r ∈ (generateDetailedReport sd fields).fieldReport, r.issue = "" := by
  refine ⟨?_, by simp [generateDetailedReport], ?_⟩
  · rw [List.eq_nil_iff_forall_not_mem]
    intro row hrow
    obtain ⟨p, hp, e, he, hissue, _⟩ := mem_reportData hrow
    obtain ⟨hv, hf⟩ := hsd e (mem_allEntries_of_mem hp he)
    simp [hasIssue, hv, hf] at hissue
  · intro r hr
    simp only [generateDetailedReport, List.mem_map] at hr
    obtain ⟨p, hp, rfl⟩ := hr
    simp [hfields p hp]

/-- Witness of C22 (amended): one valid entry and seven filled-in fields. -/
theorem C22_all_clear_report_witness :
    (generateDetailedReport (mkSegmentData [⟨"5", "HC", true, false, false⟩] [] [] [])
      [("location", "Fiji"), ("islandCountry", "Fiji"), ("date", "2024"), ("teamLeader", "A"),
       ("timeOfDive", "9"), ("divedDepth", "10"), ("nameOfDiver", "B")]).reportData = [] ∧
    (generateDetailedReport (mkSegmentData [⟨"5", "HC", true, false, false⟩] [] [] [])
      [("location", "Fiji"), ("islandCountry", "Fiji"), ("date", "2024"), ("teamLeader", "A"),
       ("timeOfDive", "9"), ("divedDepth", "10"), ("nameOfDiver", "B")]).fieldReport.length =
      ([("location", "Fiji"), ("islandCountry", "Fiji"), ("date", "2024"), ("teamLeader", "A"),
       ("timeOfDive", "9"), ("divedDepth", "10"), ("nameOfDiver", "B")] :
        ExtractedFields).length ∧
    ∀ r ∈ (generateDetailedReport (mkSegmentData [⟨"5", "HC", true, false, false⟩] [] [] [])
      [("location", "Fiji"), ("islandCountry", "Fiji"), ("date", "2024"), ("teamLeader", "A"),
       ("timeOfDive", "9"), ("divedDepth", "10"), ("nameOfDiver", "B")]).fieldReport,
      r.issue = "" :=
  C22_all_clear_report (mkSegmentData [⟨"5", "HC", true, false, false⟩] [] [] [])
    [("location", "Fiji"), ("islandCountry", "Fiji"), ("date", "2024"), ("teamLeader", "A"),
     ("timeOfDive", "9"), ("divedDepth", "10"), ("nameOfDiver", "B")]
    (by decide) (by decide)


/-! ## The statistics: lineage variant, partition, agreement with the report -/

theorem foldl_countCellProcessing (l : List SegmentEntry) (acc : ProcessingStats) :
    l.foldl countCellProcessing acc =
      { totalSubstrateCells := acc.totalSubstrateCells + l.length,
        validCells := acc.validCells + l.countP (fun e => e.isValid),
        invalidCells := acc.invalidCells +
          l.countP (fun e => !e.isValid && !e.isBlank && !e.filledFromAbove),
        blankCellsFilled := acc.blankCellsFilled + l.countP (fun e => e.filledFromAbove) } := by
  induction l generalizing acc with
  | nil => rfl
  | cons e es ih =>
    rw [List.foldl_cons, ih]
    rcases e with ⟨d, c, v, b, f⟩
    cases v <;> cases b <;> cases f <;>
      simp [countCellProcessing, isDepthOf, List.countP_cons] <;> omega

theorem foldl_statsProcessing (sd : SegmentData) (acc : ProcessingStats) :
    sd.foldl (fun acc p => p.2.data.foldl countCellProcessing acc) acc =
      { totalSubstrateCells := acc.totalSubstrateCells + (allEntries sd).length,
        validCells := acc.validCells + (allEntries sd).countP (fun e => e.isValid),
        invalidCells := acc.invalidCells +
          (allEntries sd).countP (fun e => !e.isValid && !e.isBlank && !e.filledFromAbove),
        blankCellsFilled :=
          acc.blankCellsFilled + (allEntries sd).countP (fun e => e.filledFromAbove) } := by
  induction sd generalizing acc with
  | nil => rfl
  | cons p ps ih =>
    rw [List.foldl_cons, ih, foldl_countCellProcessing]
    simp [allEntries, List.flatMap_cons, List.countP_append, Nat.add_assoc]

theorem calculateStatsProcessing_eq (sd : SegmentData) :
    calculateStatsProcessing sd =
      { totalSubstrateCells := (allEntries sd).length,
        validCells := (allEntries sd).countP (fun e => e.isValid),
        invalidCells :=
          (allEntries sd).countP (fun e => !e.isValid && !e.isBlank && !e.filledFromAbove),
        blankCellsFilled := (allEntries sd).countP (fun e => e.filledFromAbove) } := by
  unfold calculateStatsProcessing
  rw [foldl_statsProcessing]
  simp

theorem countP_split_blank (l : List SegmentEntry) :
    l.countP countsInvalid =
      l.countP (fun e => !e.isValid && !e.isBlank && !e.filledFromAbove) +
      l.countP (fun e => e.isBlank && !e.isValid && !e.filledFromAbove) := by
  induction l with
  | nil => rfl
  | cons e es ih =>
    rcases e with ⟨d, c, v, b, f⟩
    cases v <;> cases b <;> cases f <;>
      simp [countsInvalid, List.countP_cons, ih] <;> omega

/-- C23: for every `segmentData`, `calculateStats` of `processing.js` and the canonical
`calculateStats` return the same total, valid and filled counts; the canonical
`invalidCells` is the `'Invalid Cells'` of `processing.js` plus the number of entries with
`isBlank = true`, `isValid = false` and `filledFromAbove = false`; so the two agree on all
four counts exactly when there is no such entry. -/
theorem C23_stats_variants :
    (∀ sd : SegmentData,
      (calculateStats sd).totalCells = (calculateStatsProcessing sd).totalSubstrateCells ∧
      (calculateStats sd).validCells = (calculateStatsProcessing sd).validCells ∧
      (calculateStats sd).filledCells = (calculateStatsProcessing sd).blankCellsFilled ∧
      (calculateStats sd).invalidCells = (calculateStatsProcessing sd).invalidCells +
        (allEntries sd).countP
          (fun e => e.isBlank && !e.isValid && !e.filledFromAbove)) ∧
    (∀ sd : SegmentData,
      ((calculateStats sd).totalCells = (calculateStatsProcessing sd).totalSubstrateCells ∧
       (calculateStats sd).validCells = (calculateStatsProcessing sd).validCells ∧
       (calculateStats sd).invalidCells = (calculateStatsProcessing sd).invalidCells ∧
       (calculateStats sd).filledCells = (calculateStatsProcessing sd).blankCellsFilled) ↔
      ∀ e ∈ allEntries sd,
        ¬ (e.isBlank = true ∧ e.isValid = false ∧ e.filledFromAbove = false)) ∧
    calculateStats (mkSegmentData
      [⟨"5", "XX", false, false, false⟩, ⟨"10", "", false, true, false⟩] [] [] []) =
      ⟨2, 0, 2, 0⟩ ∧
    calculateStatsProcessing (mkSegmentData
      [⟨"5", "XX", false, false, false⟩, ⟨"10", "", false, true, false⟩] [] [] []) =
      ⟨2, 0, 1, 0⟩ := by
  have hmain : ∀ sd : SegmentData,
      (calculateStats sd).totalCells = (calculateStatsProcessing sd).totalSubstrateCells ∧
      (calculateStats sd).validCells = (calculateStatsProcessing sd).validCells ∧
      (calculateStats sd).filledCells = (calculateStatsProcessing sd).blankCellsFilled ∧
      (calculateStats sd).invalidCells = (calculateStatsProcessing sd).invalidCells +
        (allEntries sd).countP
          (fun e => e.isBlank && !e.isValid && !e.filledFromAbove) := by
    intro sd
    rw [calculateStats_eq, calculateStatsProcessing_eq]
    exact ⟨rfl, rfl, rfl, countP_split_blank _⟩
  refine ⟨hmain, ?_, by decide, by decide⟩
  intro sd
  obtain ⟨ht, hv, hf, hi⟩ := hmain sd
  constructor
  · rintro ⟨_, _, hinv, _⟩ e he ⟨hb, hval, hfil⟩
    have hzero : (allEntries sd).countP
        (fun e => e.isBlank && !e.isValid && !e.filledFromAbove) = 0 := by omega
    rw [List.countP_eq_zero] at hzero
    exact hzero e he (by simp [hb, hval, hfil])
  · intro hnone
    have hzero : (allEntries sd).countP
        (fun e => e.isBlank && !e.isValid && !e.filledFromAbove) = 0 := by
      rw [List.countP_eq_zero]
      intro e he hp
      simp only [Bool.and_eq_true, Bool.not_eq_true'] at hp
      exact hnone e he ⟨hp.1.1, hp.1.2, hp.2⟩
    exact ⟨ht, hv, by omega, hf⟩

/-- C25: every entry of a `segmentData` returned by `processSegmentData`, whatever the
table, satisfies: `filledFromAbove` implies `isBlank` and `isValid`; `isBlank` without
`filledFromAbove` implies an empty content and `isValid = false`. So a filled entry is
never invalid, and on well-formed cells a blank code cell with no earlier non-blank valid
code in its segment is emitted empty, blank, unfilled and invalid. -/
theorem C25_flag_consistency :
    (∀ (table : Option Table) (sd : SegmentData), processSegmentData table = .ok sd →
      ∀ (s : Int) (e : SegmentEntry), e ∈ dataOf sd s →
        (e.filledFromAbove = true → e.isBlank = true ∧ e.isValid = true) ∧
        (e.isBlank = true → e.filledFromAbove = false → e.content = "" ∧ e.isValid = false) ∧
        ¬ (e.filledFromAbove = true ∧ e.isValid = false)) ∧
    (∀ (cells : List RawCell) (s : Int), 1 ≤ s → s ≤ 4 →
      ∀ (pre post : List RawCell) (b : RawCell), codeCells s cells = pre ++ b :: post →
        normContent b.content = "" →
        (∀ c ∈ pre,
          ¬ (normContent c.content ≠ "" ∧ isValidCode (normContent c.content) = true)) →
        ∃ sd, processSegmentData (some (Table.ofRaw cells)) = .ok sd ∧
          (dataOf sd s)[pre.length]? = some
            { depth := pairedDepth cells b, content := "", isValid := false,
              isBlank := true, filledFromAbove := false }) ∧
    processSegmentData (some (Table.ofRaw
        [⟨1, 1, .str ""⟩, ⟨2, 1, .str "sc"⟩, ⟨3, 1, .null⟩])) = .ok
      [(1, ⟨"0 - 19.5 m",
          [⟨"", "", false, true, false⟩, ⟨"", "sc", true, false, false⟩,
           ⟨"", "sc", true, true, true⟩]⟩),
       (2, ⟨"25 - 44.5 m", []⟩), (3, ⟨"50 - 69.5 m", []⟩), (4, ⟨"75 - 94.5 m", []⟩)] := by
  refine ⟨?_, ?_, rfl⟩
  · intro table sd h s e he
    obtain ⟨_, h2, h3⟩ := (processSegmentData_inv h).2 e (mem_allEntries_of_mem_dataOf he)
    refine ⟨h2, h3, ?_⟩
    rintro ⟨hf, hv⟩
    have := (h2 hf).2
    rw [hv] at this
    cases this
  · intro cells s h1 h4 pre post b hsplit hb hpre
    obtain ⟨sd, hsd, hdata⟩ := dataOf_processSegmentData cells s h1 h4
    refine ⟨sd, hsd, ?_⟩
    rw [hdata, hsplit, specFill_getElem?, specLastAfter_stable none pre hpre]
    simp [specEntry, fillEntry, hb]
    decide

/-- C26: for every table on which `processSegmentData` returns, the statistics of the
result satisfy `validCells + invalidCells = totalCells` and `filledCells ≤ validCells`. -/
theorem C26_stats_partition (table : Option Table) (sd : SegmentData)
    (h : processSegmentData table = .ok sd) :
    (calculateStats sd).validCells + (calculateStats sd).invalidCells =
      (calculateStats sd).totalCells ∧
    (calculateStats sd).filledCells ≤ (calculateStats sd).validCells := by
  have hinv := (processSegmentData_inv h).2
  rw [calculateStats_eq]
  simp only
  generalize allEntries sd = l at hinv
  induction l with
  | nil => exact ⟨rfl, Nat.le_refl _⟩
  | cons e es ih =>
    obtain ⟨ih1, ih2⟩ := ih (fun x hx => hinv x (List.mem_cons_of_mem _ hx))
    obtain ⟨_, hfill, _⟩ := hinv e (List.mem_cons_self _ _)
    rcases e with ⟨d, c, v, b, f⟩
    cases v <;> cases f <;> simp [countsInvalid, List.countP_cons] at hfill ⊢ <;> omega

/-- Witness of C26: a valid code, a wrong code, a filled blank and an unfilled blank. -/
theorem C26_stats_partition_witness :
    (calculateStats (mkSegmentData
        [⟨"", "HC", true, false, false⟩, ⟨"", "XX", false, false, false⟩,
         ⟨"", "HC", true, true, true⟩] [⟨"", "", false, true, false⟩] [] [])).validCells +
      (calculateStats (mkSegmentData
        [⟨"", "HC", true, false, false⟩, ⟨"", "XX", false, false, false⟩,
         ⟨"", "HC", true, true, true⟩] [⟨"", "", false, true, false⟩] [] [])).invalidCells =
      (calculateStats (mkSegmentData
        [⟨"", "HC", true, false, false⟩, ⟨"", "XX", false, false, false⟩,
         ⟨"", "HC", true, true, true⟩] [⟨"", "", false, true, false⟩] [] [])).totalCells ∧
    (calculateStats (mkSegmentData
        [⟨"", "HC", true, false, false⟩, ⟨"", "XX", false, false, false⟩,
         ⟨"", "HC", true, true, true⟩] [⟨"", "", false, true, false⟩] [] [])).filledCells ≤
      (calculateStats (mkSegmentData
        [⟨"", "HC", true, false, false⟩, ⟨"", "XX", false, false, false⟩,
         ⟨"", "HC", true, true, true⟩] [⟨"", "", false, true, false⟩] [] [])).validCells :=
  C26_stats_partition
    (some (Table.ofRaw [⟨1, 1, .str "HC"⟩, ⟨2, 1, .str "XX"⟩, ⟨3, 1, .str ""⟩,
      ⟨1, 3, .str ""⟩]))
    (mkSegmentData
      [⟨"", "HC", true, false, false⟩, ⟨"", "XX", false, false, false⟩,
       ⟨"", "HC", true, true, true⟩] [⟨"", "", false, true, false⟩] [] []) rfl

/-- C27: for every `segmentData`, the number of rows of the segment report equals
`invalidCells + filledCells` of `calculateStats` on the same `segmentData`. -/
theorem C27_report_rows_eq_invalid_plus_filled :
    (∀ (sd : SegmentData) (fields : ExtractedFields),
      (generateDetailedReport sd fields).reportData.length =
        (calculateStats sd).invalidCells + (calculateStats sd).filledCells) ∧
    (generateDetailedReport (mkSegmentData
        [⟨"", "HC", true, false, false⟩, ⟨"", "XX", false, false, false⟩,
         ⟨"", "HC", true, true, true⟩] [⟨"", "", false, true, false⟩] [] [])
      []).reportData.length = 3 := by
  refine ⟨?_, by decide⟩
  intro sd fields
  rw [calculateStats_eq, reportData_eq]
  simp only
  induction sd with
  | nil => rfl
  | cons p ps ih =>
    simp only [List.flatMap_cons, List.length_append, List.length_map, allEntries,
      List.countP_append] at ih ⊢
    rw [ih]
    have hseg : ∀ l : List SegmentEntry, (l.filter hasIssue).length =
        l.countP countsInvalid + l.countP (fun e => e.filledFromAbove) := by
      intro l
      induction l with
      | nil => rfl
      | cons e es ihl =>
        rcases e with ⟨d, c, v, b, f⟩
        cases v <;> cases f <;>
          simp [hasIssue, countsInvalid, List.filter_cons, List.countP_cons, ihl] <;> omega
    rw [hseg]
    omega


/-! ## Order and independence of the input cells -/

theorem specFill_congr (cells1 cells2 : List RawCell) (last : Option String) (l : List RawCell)
    (h : ∀ c ∈ l, pairedDepth cells1 c = pairedDepth cells2 c) :
    specFill cells1 last l = specFill cells2 last l := by
  induction l generalizing last with
  | nil => rfl
  | cons c cs ih =>
    simp only [specFill, specEntry, h c (List.mem_cons_self _ _)]
    rw [ih _ (fun x hx => h x (List.mem_cons_of_mem _ hx))]

theorem codeCells_filter (s : Int) (q : RawCell → Bool) (cells : List RawCell)
    (hq : ∀ c, isCodeCellOf s c = true → q c = true) :
    codeCells s (cells.filter q) = codeCells s cells := by
  unfold codeCells
  rw [List.filter_filter]
  apply List.filter_congr
  intro c _
  cases hc : isCodeCellOf s c with
  | false => rfl
  | true => simp [hq c hc]

theorem cellAt_filter (q : RawCell → Bool) (cells : List RawCell) (r k : Int)
    (hq : ∀ c : RawCell, c.columnIndex = k → q c = true) :
    cellAt (cells.filter q) r k = cellAt cells r k := by
  unfold cellAt
  rw [List.find?_filter]
  congr 1
  funext c
  by_cases hc : c.rowIndex = r ∧ c.columnIndex = k
  · simp [hc, hq c hc.2]
  · simp [hc]

theorem cellAt_perm {cells1 cells2 : List RawCell} (hperm : cells1.Perm cells2)
    (hnodup : (cells1.map fun c => (c.rowIndex, c.columnIndex)).Nodup) (r k : Int) :
    cellAt cells1 r k = cellAt cells2 r k := by
  unfold cellAt
  cases h1 : cells1.find? (fun d => decide (d.rowIndex = r ∧ d.columnIndex = k)) with
  | none =>
    cases h2 : cells2.find? (fun d => decide (d.rowIndex = r ∧ d.columnIndex = k)) with
    | none => rfl
    | some d2 =>
      have hm := hperm.mem_iff.2 (List.mem_of_find?_eq_some h2)
      have hp := List.find?_some h2
      exact absurd hp (List.find?_eq_none.1 h1 d2 hm)
  | some d1 =>
    cases h2 : cells2.find? (fun d => decide (d.rowIndex = r ∧ d.columnIndex = k)) with
    | none =>
      have hm := hperm.mem_iff.1 (List.mem_of_find?_eq_some h1)
      have hp := List.find?_some h1
      exact absurd hp (List.find?_eq_none.1 h2 d1 hm)
    | some d2 =>
      have hm1 := List.mem_of_find?_eq_some h1
      have hm2 := hperm.mem_iff.2 (List.mem_of_find?_eq_some h2)
      have hp1 : d1.rowIndex = r ∧ d1.columnIndex = k := by simpa using List.find?_some h1
      have hp2 : d2.rowIndex = r ∧ d2.columnIndex = k := by simpa using List.find?_some h2
      have := List.inj_on_of_nodup_map hnodup hm1 hm2
        (by simp only [hp1.1, hp1.2, hp2.1, hp2.2])
      rw [this]

/-- C24: there are two sequences of well-formed cells with distinct positions, each a
permutation of the other, on which `processSegmentData` returns different results: with
the blank cell of row 2 ahead of the `"HC"` cell of row 1 the blank is not filled. -/
theorem C24_order_is_load_bearing :
    ∃ cells1 cells2 : List RawCell, cells1.Perm cells2 ∧
      (cells1.map fun c => (c.rowIndex, c.columnIndex)).Nodup ∧
      ∃ sd1 sd2, processSegmentData (some (Table.ofRaw cells1)) = .ok sd1 ∧
        processSegmentData (some (Table.ofRaw cells2)) = .ok sd2 ∧ sd1 ≠ sd2 ∧
        dataOf sd1 1 = [⟨"", "HC", true, false, false⟩, ⟨"", "HC", true, true, true⟩] ∧
        dataOf sd2 1 = [⟨"", "", false, true, false⟩, ⟨"", "HC", true, false, false⟩] := by
  refine ⟨[⟨1, 1, .str "HC"⟩, ⟨2, 1, .str ""⟩], [⟨2, 1, .str ""⟩, ⟨1, 1, .str "HC"⟩],
    List.Perm.swap _ _ _, by decide, _, _, rfl, rfl, by decide, rfl, rfl⟩

/-- C28: on well-formed cells and for a segment `s` of `1..4`, `processSegmentData` on the
input restricted, in order, to the cells of columns `2s - 2` and `2s - 1` returns the same
data sequence for segment `s` as on the whole input. -/
theorem C28_segment_independence (cells : List RawCell) (s : Int) (h1 : 1 ≤ s) (h4 : s ≤ 4) :
    ∃ sd sd2, processSegmentData (some (Table.ofRaw cells)) = .ok sd ∧
      processSegmentData (some (Table.ofRaw (cells.filter fun c =>
        decide (c.columnIndex = 2 * s - 2 ∨ c.columnIndex = 2 * s - 1)))) = .ok sd2 ∧
      dataOf sd2 s = dataOf sd s := by
  obtain ⟨sd, hsd, hdata⟩ := dataOf_processSegmentData cells s h1 h4
  obtain ⟨sd2, hsd2, hdata2⟩ := dataOf_processSegmentData
    (cells.filter fun c => decide (c.columnIndex = 2 * s - 2 ∨ c.columnIndex = 2 * s - 1))
    s h1 h4
  refine ⟨sd, sd2, hsd, hsd2, ?_⟩
  rw [hdata, hdata2, codeCells_filter]
  · apply specFill_congr
    intro c hc
    have hcode : isCodeCellOf s c = true := (List.mem_filter.1 hc).2
    have hcol : c.columnIndex = 2 * s - 1 := by
      simp only [isCodeCellOf, decide_eq_true_eq] at hcode
      exact hcode.2
    unfold pairedDepth
    rw [cellAt_filter]
    intro d hd
    simp only [decide_eq_true_eq]
    left
    omega
  · intro c hc
    simp only [isCodeCellOf, decide_eq_true_eq] at hc
    simp [hc.2]

/-- Witness of C28: segment 2 among cells of segments 1, 2 and 3. -/
theorem C28_segment_independence_witness :
    ∃ sd sd2, processSegmentData (some (Table.ofRaw
        [⟨1, 0, .str "5"⟩, ⟨1, 1, .str "HC"⟩, ⟨1, 2, .str "30"⟩, ⟨1, 3, .str "SC"⟩,
         ⟨2, 3, .str ""⟩, ⟨1, 5, .str "XX"⟩])) = .ok sd ∧
      processSegmentData (some (Table.ofRaw
        (([⟨1, 0, .str "5"⟩, ⟨1, 1, .str "HC"⟩, ⟨1, 2, .str "30"⟩, ⟨1, 3, .str "SC"⟩,
         ⟨2, 3, .str ""⟩, ⟨1, 5, .str "XX"⟩] : List RawCell).filter fun c =>
          decide (c.columnIndex = 2 * 2 - 2 ∨ c.columnIndex = 2 * 2 - 1)))) = .ok sd2 ∧
      dataOf sd2 2 = dataOf sd 2 :=
  C28_segment_independence
    [⟨1, 0, .str "5"⟩, ⟨1, 1, .str "HC"⟩, ⟨1, 2, .str "30"⟩, ⟨1, 3, .str "SC"⟩,
     ⟨2, 3, .str ""⟩, ⟨1, 5, .str "XX"⟩] 2 (by decide) (by decide)

/-- C29: for two sequences of well-formed cells with distinct positions, each a
permutation of the other, with the same subsequence of odd-column cells,
`processSegmentData` returns the same result. -/
theorem C29_depth_cells_any_order (cells1 cells2 : List RawCell)
    (hperm : cells1.Perm cells2)
    (hnodup : (cells1.map fun c => (c.rowIndex, c.columnIndex)).Nodup)
    (hcode : cells1.filter (fun c => decide (c.columnIndex % 2 = 1)) =
      cells2.filter (fun c => decide (c.columnIndex % 2 = 1))) :
    processSegmentData (some (Table.ofRaw cells1)) =
      processSegmentData (some (Table.ofRaw cells2)) := by
  have hcc : ∀ s : Int, codeCells s cells1 = codeCells s cells2 := by
    intro s
    have hq : ∀ c, isCodeCellOf s c = true → decide (c.columnIndex % 2 = 1) = true := by
      intro c hc
      simp only [isCodeCellOf, decide_eq_true_eq] at hc ⊢
      omega
    rw [← codeCells_filter s _ cells1 hq, ← codeCells_filter s _ cells2 hq, hcode]
  have hfill : ∀ (s : Int) (l : List RawCell),
      specFill cells1 none l = specFill cells2 none l := by
    intro s l
    apply specFill_congr
    intro c _
    unfold pairedDepth
    rw [cellAt_perm hperm hnodup]
  rw [processSegmentData_ofRaw, processSegmentData_ofRaw, hcc 1, hcc 2, hcc 3, hcc 4,
    hfill 1, hfill 2, hfill 3, hfill 4]

/-- Witness of C29: the depth cells of rows 1 and 2 moved from before their code cells to
the end, in reverse order. -/
theorem C29_depth_cells_any_order_witness :
    processSegmentData (some (Table.ofRaw
        [⟨1, 0, .str "5"⟩, ⟨1, 1, .str "HC"⟩, ⟨2, 0, .str "10"⟩, ⟨2, 1, .str ""⟩])) =
      processSegmentData (some (Table.ofRaw
        [⟨1, 1, .str "HC"⟩, ⟨2, 1, .str ""⟩, ⟨2, 0, .str "10"⟩, ⟨1, 0, .str "5"⟩])) ∧
    processSegmentData (some (Table.ofRaw
        [⟨1, 1, .str "HC"⟩, ⟨2, 1, .str ""⟩, ⟨2, 0, .str "10"⟩, ⟨1, 0, .str "5"⟩])) = .ok
      [(1, ⟨"0 - 19.5 m", [⟨"5", "HC", true, false, false⟩, ⟨"10", "HC", true, true, true⟩]⟩),
       (2, ⟨"25 - 44.5 m", []⟩), (3, ⟨"50 - 69.5 m", []⟩), (4, ⟨"75 - 94.5 m", []⟩)] :=
  ⟨C29_depth_cells_any_order
    [⟨1, 0, .str "5"⟩, ⟨1, 1, .str "HC"⟩, ⟨2, 0, .str "10"⟩, ⟨2, 1, .str ""⟩]
    [⟨1, 1, .str "HC"⟩, ⟨2, 1, .str ""⟩, ⟨2, 0, .str "10"⟩, ⟨1, 0, .str "5"⟩]
    (by decide) (by decide) (by decide), rfl⟩


/-! ## Extraction applied twice -/

/-- A record whose keys are the seven output keys has none of the seven source keys. -/
theorem lookup_recordAsBag_source (v1 v2 v3 v4 v5 v6 v7 : String) (key : String)
    (hkey : key ∈ ["Location", "Island/Country", "Date", "Team Leader", "Time of Dive",
      "Dived Depth", "Name Of Diver"]) :
    (recordAsBag [("location", v1), ("islandCountry", v2), ("date", v3), ("teamLeader", v4),
      ("timeOfDive", v5), ("divedDepth", v6), ("nameOfDiver", v7)]).lookup key = none := by
  simp only [List.mem_cons, List.mem_singleton, List.not_mem_nil, or_false] at hkey
  rcases hkey with h | h | h | h | h | h | h <;> subst h <;> rfl

theorem extractFieldRefined_absent (fields : FieldBag) (key : String)
    (h : fields.lookup key = none) : extractFieldRefined fields key = "N/A" := by
  simp [extractFieldRefined, fieldValue, h, JsText.orEmpty, orNA]

/-- C30: `extractFields` applied to an already extracted record returns all seven values
`"N/A"`, for the canonical function and for the one of `refined.js`, since none of the
seven source keys is one of the seven output keys; so the legacy-variant flag that
`refined.js` computes from `extractFields(fields)`, with `fields` already extracted, is
false for every document, also for one whose first extraction finds a location. -/
theorem C30_double_extraction_loses_everything :
    (∀ b : FieldBag, extractFields (.obj (recordAsBag (extractFieldsObj b))) = .ok
      [("location", "N/A"), ("islandCountry", "N/A"), ("date", "N/A"), ("teamLeader", "N/A"),
       ("timeOfDive", "N/A"), ("divedDepth", "N/A"), ("nameOfDiver", "N/A")]) ∧
    (∀ b : FieldBag, extractFieldsRefined (recordAsBag (extractFieldsRefined b)) =
      [("location", "N/A"), ("islandCountry", "N/A"), ("date", "N/A"), ("teamLeader", "N/A"),
       ("timeOfDive", "N/A"), ("divedDepth", "N/A"), ("nameOfDiver", "N/A")]) ∧
    (∀ key ∈ ["Location", "Island/Country", "Date", "Team Leader", "Time of Dive",
        "Dived Depth", "Name Of Diver"],
      key ∉ ["location", "islandCountry", "date", "teamLeader", "timeOfDive", "divedDepth",
        "nameOfDiver"]) ∧
    (∀ documentFields : Option FieldBag, refinedIsOldVersion documentFields = false) ∧
    isOldVersion (extractFieldsRefined [("Location", some ⟨.str "Fiji"⟩)]) = true ∧
    refinedIsOldVersion (some [("Location", some ⟨.str "Fiji"⟩)]) = false := by
  have hcanon : ∀ b : FieldBag, extractFieldsObj (recordAsBag (extractFieldsObj b)) =
      [("location", "N/A"), ("islandCountry", "N/A"), ("date", "N/A"), ("teamLeader", "N/A"),
       ("timeOfDive", "N/A"), ("divedDepth", "N/A"), ("nameOfDiver", "N/A")] := by
    intro b
    have hl := lookup_recordAsBag_source (extractField b "Location")
      (extractField b "Island/Country") (extractField b "Date") (extractField b "Team Leader")
      (extractField b "Time of Dive") (extractField b "Dived Depth")
      (extractField b "Name Of Diver")
    have hrec : extractFieldsObj b = [("location", extractField b "Location"),
      ("islandCountry", extractField b "Island/Country"), ("date", extractField b "Date"),
      ("teamLeader", extractField b "Team Leader"),
      ("timeOfDive", extractField b "Time of Dive"),
      ("divedDepth", extractField b "Dived Depth"),
      ("nameOfDiver", extractField b "Name Of Diver")] := rfl
    rw [hrec]
    generalize recordAsBag _ = bag at hl
    simp only [extractFieldsObj]
    rw [extractField_absent bag _ (hl _ (by simp)), extractField_absent bag _ (hl _ (by simp)),
      extractField_absent bag _ (hl _ (by simp)), extractField_absent bag _ (hl _ (by simp)),
      extractField_absent bag _ (hl _ (by simp)), extractField_absent bag _ (hl _ (by simp)),
      extractField_absent bag _ (hl _ (by simp))]
  have hrefined : ∀ b : FieldBag, extractFieldsRefined (recordAsBag (extractFieldsRefined b)) =
      [("location", "N/A"), ("islandCountry", "N/A"), ("date", "N/A"), ("teamLeader", "N/A"),
       ("timeOfDive", "N/A"), ("divedDepth", "N/A"), ("nameOfDiver", "N/A")] := by
    intro b
    have hl := lookup_recordAsBag_source (extractFieldRefined b "Location")
      (extractFieldRefined b "Island/Country") (extractFieldRefined b "Date")
      (extractFieldRefined b "Team Leader") (extractFieldRefined b "Time of Dive")
      (extractFieldRefined b "Dived Depth") (extractFieldRefined b "Name Of Diver")
    have hrec : extractFieldsRefined b = [("location", extractFieldRefined b "Location"),
      ("islandCountry", extractFieldRefined b "Island/Country"),
      ("date", extractFieldRefined b "Date"),
      ("teamLeader", extractFieldRefined b "Team Leader"),
      ("timeOfDive", extractFieldRefined b "Time of Dive"),
      ("divedDepth", extractFieldRefined b "Dived Depth"),
      ("nameOfDiver", extractFieldRefined b "Name Of Diver")] := rfl
    rw [hrec]
    generalize recordAsBag _ = bag at hl
    simp only [extractFieldsRefined]
    rw [extractFieldRefined_absent bag _ (hl _ (by simp)),
      extractFieldRefined_absent bag _ (hl _ (by simp)),
      extractFieldRefined_absent bag _ (hl _ (by simp)),
      extractFieldRefined_absent bag _ (hl _ (by simp)),
      extractFieldRefined_absent bag _ (hl _ (by simp)),
      extractFieldRefined_absent bag _ (hl _ (by simp)),
      extractFieldRefined_absent bag _ (hl _ (by simp))]
  refine ⟨?_, hrefined, by decide, ?_, by decide, by decide⟩
  · intro b
    simp only [extractFields, hcanon]
  · intro d
    simp only [refinedIsOldVersion, hrefined]
    decide


end ReefOCR
